import Mathlib

set_option maxRecDepth 40000
set_option linter.unusedVariables false
set_option linter.constructorNameAsVariable false

/-! Verification development for the PriceScope price-comparison server.

The JavaScript source (the Express server entry point) is shallowly embedded
below: pure functions become Lean functions on `List Char` / `String`, JS
numbers are modelled as `ℚ` (with `Option` layers for `undefined` / `NaN`
where the source can observe them), and the two Express handlers become pure
functions of an explicit environment recording the outcome of each external
call (network fetches, the AI extractor, the exchange-rate service). -/

/-! ## JS character and string primitives -/

/-- Models `String.prototype.toLowerCase` on one character for the ASCII
range, the only range the source compares case-insensitively (regex `i`
flags on ASCII patterns, `'inr'` / `'unknown'` searches). -/
def lowerChar (c : Char) : Char :=
  if 'A' ≤ c ∧ c ≤ 'Z' then Char.ofNat (c.toNat + 32) else c

/-- Models `String.prototype.toUpperCase` on one character (ASCII range,
used by the source only on currency codes and slug words). -/
def upperChar (c : Char) : Char :=
  if 'a' ≤ c ∧ c ≤ 'z' then Char.ofNat (c.toNat - 32) else c

/-- Character class `\s` of JS regexes (also the class trimmed by
`String.prototype.trim`): ASCII whitespace plus the Unicode space
separators, NBSP, BOM and the line/paragraph separators. -/
def isJsWs (c : Char) : Bool :=
  let n := c.toNat
  n = 9 || n = 10 || n = 11 || n = 12 || n = 13 || n = 32 ||
  n = 160 || n = 0x1680 || (0x2000 ≤ n && n ≤ 0x200A) ||
  n = 0x2028 || n = 0x2029 || n = 0x202F || n = 0x205F ||
  n = 0x3000 || n = 0xFEFF

/-- Character class `\d` of JS regexes. -/
def isDigitChar (c : Char) : Bool :=
  '0' ≤ c && c ≤ '9'

/-- Character class `[a-f0-9]` with the `i` flag (hex digits). -/
def isHexChar (c : Char) : Bool :=
  isDigitChar c || ('a' ≤ c && c ≤ 'f') || ('A' ≤ c && c ≤ 'F')

/-- Character class `\w` of JS regexes. -/
def isWordChar (c : Char) : Bool :=
  isDigitChar c || ('a' ≤ c && c ≤ 'z') || ('A' ≤ c && c ≤ 'Z') || c = '_'

/-- Case-insensitive prefix test: does `l` start with pattern `p` up to
ASCII case? Implements matching a literal regex fragment under the `i`
flag. -/
def ciStarts : List Char → List Char → Bool
  | [], _ => true
  | _ :: _, [] => false
  | p :: ps, c :: cs => (lowerChar c == lowerChar p) && ciStarts ps cs

/-- Case-sensitive substring test, models `String.prototype.includes`. -/
def containsSub (pat : List Char) : List Char → Bool
  | [] => pat.isEmpty
  | l@(_ :: rest) => pat.isPrefixOf l || containsSub pat rest

/-- Scanner for a global literal replace. The counter says how many
characters of an already-matched occurrence remain to be consumed;
at counter zero a new match may begin. -/
def replaceAllAux (pat rep : List Char) : List Char → ℕ → List Char
  | [], _ => []
  | _ :: rest, skip + 1 => replaceAllAux pat rep rest skip
  | c :: rest, 0 =>
    if pat ≠ [] ∧ pat.isPrefixOf (c :: rest) then
      rep ++ replaceAllAux pat rep rest (pat.length - 1)
    else c :: replaceAllAux pat rep rest 0

/-- Models `str.replace(/pat/g, rep)` for a literal (non-empty) pattern:
left-to-right, non-overlapping, and the replacement is not rescanned
(on a match the whole occurrence is consumed before scanning resumes). -/
def replaceAll (pat rep l : List Char) : List Char :=
  replaceAllAux pat rep l 0

/-- Models `str.replace('pat', rep)` (string pattern: first occurrence
only). -/
def replaceFirst (pat rep : List Char) : List Char → List Char
  | [] => []
  | l@(c :: rest) =>
    if pat ≠ [] ∧ pat.isPrefixOf l then rep ++ l.drop pat.length
    else c :: replaceFirst pat rep rest

/-! ## JS numbers

JS numbers are IEEE doubles; the source only ever produces them from
decimal price strings and multiplies/divides/rounds them, so they are
modelled exactly as rationals, with `none` standing for `NaN` where a
`NaN` is observable (`Option ℚ`), and a further `Option` layer standing
for `undefined` arguments. -/

/-- Models `Math.round`: round half toward positive infinity. -/
def jsRound (q : ℚ) : ℤ := ⌊q + 1 / 2⌋

/-- Value of a digit character. -/
def digitVal (c : Char) : ℕ := c.toNat - 48

/-- Numeric value of a digit run. -/
def natOfDigits (l : List Char) : ℕ :=
  l.foldl (fun acc c => 10 * acc + digitVal c) 0

/-- Models `parseFloat` restricted to strings over the alphabet
`0-9 .` (the only strings the source feeds it, after its cleaning
regexes): parse the longest prefix `digits* ('.' digits*)?`; `NaN`
(here `none`) when that prefix holds no digit. Values are exact
rationals. -/
def jsParseFloat (l : List Char) : Option ℚ :=
  let intPart := l.takeWhile isDigitChar
  let rest := l.dropWhile isDigitChar
  match rest with
  | '.' :: r2 =>
    let frac := r2.takeWhile isDigitChar
    if intPart = [] ∧ frac = [] then none
    else some ((natOfDigits intPart : ℚ) + (natOfDigits frac : ℚ) / 10 ^ frac.length)
  | _ => if intPart = [] then none else some (natOfDigits intPart)

/-- Group a reversed digit list in pairs (working right to left in the
original orientation), as `toLocaleString('en-IN')` does left of the
last three digits. -/
def groupTwoRev : List Char → List Char
  | a :: b :: c :: rest => a :: b :: ',' :: groupTwoRev (c :: rest)
  | l => l

/-- Models `n.toLocaleString('en-IN')` for an integer `n` (Indian digit
grouping: last three digits, then groups of two, e.g.
`1234567 ↦ "12,34,567"`). -/
def toLocaleEnIN (n : ℤ) : String :=
  let ds := (Nat.repr n.natAbs).data
  let grouped :=
    if ds.length ≤ 3 then ds
    else (groupTwoRev ((ds.take (ds.length - 3)).reverse)).reverse ++
      ',' :: ds.drop (ds.length - 3)
  if n < 0 then ⟨'-' :: grouped⟩ else ⟨grouped⟩

/-- Truthiness of a JS string variable that may be `undefined`:
`undefined` and `''` are falsy. -/
def truthyStr : Option String → Bool
  | none => false
  | some s => s ≠ ""

/-- Models `a || b` for a possibly-undefined string `a` with string
default `b`. -/
def jsOr (a : Option String) (b : String) : String :=
  match a with
  | some s => if s = "" then b else s
  | none => b

/-! ## Currency normalizer (source lines 23–66)

`getINRRate` reads and writes the module-level pair
`exchangeRates` / `ratesFetchedAt`; it is embedded as a pure transition on
an explicit `RateState`, with the outcome of the one network call passed
in as `Option` (`none` = the `axios.get` threw). -/

/-- Snapshot of the module-level exchange-rate cache: the `exchangeRates`
object (an association list keyed by currency code, first match wins) and
`ratesFetchedAt` in epoch milliseconds. -/
structure RateState where
  rates : List (String × ℚ)
  fetchedAt : ℤ

/-- Models `exchangeRates[k]`: `undefined` when the key is absent. -/
def lookupRate (m : List (String × ℚ)) (k : String) : Option ℚ :=
  (m.find? (fun p => p.1 = k)).map (fun p => p.2)

/-- Truthiness of `exchangeRates[k]`: `undefined` and `0` are falsy. -/
def truthyRate : Option ℚ → Bool
  | none => false
  | some q => q ≠ 0

/-- Hardcoded fallback table installed when the rate refresh fails
(source line 42). -/
def fallbackRates : List (String × ℚ) :=
  [("USD", 0.012), ("EUR", 0.011), ("GBP", 0.0095), ("JPY", 1.8), ("INR", 1)]

/-- Refresh condition of `getINRRate` (source line 30): snapshot older
than 30 minutes, or no (truthy) rate stored under the *raw* requested
code. -/
def needsRefresh (st : RateState) (now : ℤ) (fromCurrency : String) : Bool :=
  (decide (now - st.fetchedAt > 30 * 60 * 1000)) ||
  !(truthyRate (lookupRate st.rates fromCurrency))

/-- State left behind by `getINRRate` (source lines 30–44): on a
triggered refresh, success replaces the snapshot and stamps it `now`;
failure replaces the snapshot with `fallbackRates` and leaves the stamp
untouched. `fetched` is the network outcome (`none` = `axios.get`
threw). -/
def rateStateAfter (st : RateState) (now : ℤ) (fromCurrency : String)
    (fetched : Option (List (String × ℚ))) : RateState :=
  if needsRefresh st now fromCurrency then
    match fetched with
    | some rates => ⟨rates, now⟩
    | none => ⟨fallbackRates, st.fetchedAt⟩
  else st

/-- Models `String.prototype.toUpperCase` (ASCII, enough for currency
codes). -/
def jsToUpper (s : String) : String := ⟨s.data.map upperChar⟩

/-- Return value of `getINRRate` (source lines 45–49): 1 for INR, else
`1 / rate` for a truthy stored rate, else the hardcoded 83. -/
def getINRRateVal (st : RateState) (now : ℤ) (fetched : Option (List (String × ℚ)))
    (fromCurrency : String) : ℚ :=
  let st' := rateStateAfter st now fromCurrency fetched
  let upper := jsToUpper fromCurrency
  if upper = "INR" then 1
  else
    match lookupRate st'.rates upper with
    | some r => if r ≠ 0 then 1 / r else 83
    | none => 83

/-- Models `toINR(amount, currency)` (source lines 52–56). The amount is
`Option (Option ℚ)`: `none` = argument missing/`null`, `some none` =
`NaN`, `some (some q)` = the finite number `q`. The guard is the source's
`if (!amount || isNaN(amount)) return null` (so `0` is also mapped to
`null`, being falsy); otherwise `Math.round(amount * rate)`. -/
def toINRval (st : RateState) (now : ℤ) (fetched : Option (List (String × ℚ)))
    (amount : Option (Option ℚ)) (currency : String) : Option ℤ :=
  match amount with
  | none => none
  | some none => none
  | some (some q) =>
    if q = 0 then none
    else some (jsRound (q * getINRRateVal st now fetched currency))

/-! ## Currency detection and price parsing (source lines 58–74) -/

/-- Models `detectCurrency(priceStr)` (source lines 59–66). -/
def detectCurrency (priceStr : Option String) : String :=
  match priceStr with
  | none => "USD"
  | some s =>
    if s = "" then "USD"
    else if s.data.contains '₹' || containsSub "inr".data (s.data.map lowerChar) then "INR"
    else if s.data.contains '€' then "EUR"
    else if s.data.contains '£' then "GBP"
    else if s.data.contains '¥' then "JPY"
    else "USD"

/-- Models `parseNumericPrice(str)` (source lines 69–74):
`replace(/[^\d.,]/g, '')` then `replace(/,/g, '')` then `parseFloat`,
with `NaN` mapped to `null`. -/
def parseNumericPrice (str : Option String) : Option ℚ :=
  match str with
  | none => none
  | some s =>
    if s = "" then none
    else
      let kept := s.data.filter (fun c => isDigitChar c || c = '.' || c = ',')
      let cleaned := kept.filter (fun c => c ≠ ',')
      jsParseFloat cleaned

/-! ## URL helpers (source lines 76–121)

The source uses the platform's WHATWG `new URL(url)`; it is modelled for
absolute `http://` / `https://` URLs with a non-empty host: hostname is the
lower-cased authority up to `:` or the first of `/ ? #`, pathname is the
path up to `? #` (or `/` when absent). Other inputs throw (`none`), which
is what the source's `try { new URL(url) } catch` observes. Userinfo,
percent- and dot-segment normalisation are not modelled; no claim depends
on them. -/

/-- Models `String.prototype.split` against a one-character separator
class, on character lists: `"a.b" ↦ ["a","b"]`, `"" ↦ [""]`, and
adjacent separators yield empty segments, as in JS. -/
def splitOnPred (p : Char → Bool) : List Char → List (List Char)
  | [] => [[]]
  | c :: rest =>
    if p c then [] :: splitOnPred p rest
    else
      match splitOnPred p rest with
      | s :: ss => (c :: s) :: ss
      | [] => [[c]]

/-- Hostname and pathname of `new URL s` for a plain absolute http(s)
URL; `none` models the constructor throwing. -/
def urlParse (s : String) : Option (String × String) :=
  let afterScheme : Option (List Char) :=
    if "http://".data.isPrefixOf s.data then some (s.data.drop 7)
    else if "https://".data.isPrefixOf s.data then some (s.data.drop 8)
    else none
  match afterScheme with
  | none => none
  | some l =>
    let hostport := l.takeWhile (fun c => c ≠ '/' && c ≠ '?' && c ≠ '#')
    let rest := l.dropWhile (fun c => c ≠ '/' && c ≠ '?' && c ≠ '#')
    let host := (hostport.takeWhile (fun c => c ≠ ':')).map lowerChar
    if host = [] then none
    else
      let path :=
        match rest with
        | '/' :: _ => rest.takeWhile (fun c => c ≠ '?' && c ≠ '#')
        | _ => ['/']
      some (⟨host⟩, ⟨path⟩)

/-- First word of a dotted hostname with a leading `www.` occurrence
removed, capitalised — models `getWebsiteName(url)` (source lines
77–86). -/
def getWebsiteName (url : String) : String :=
  match urlParse url with
  | none => "Website"
  | some (host, _) =>
    let h := replaceFirst "www.".data "".data host.data
    let parts := splitOnPred (fun c => c = '.') h
    let name := parts.headD []
    match name with
    | [] => ""
    | c :: rest => ⟨upperChar c :: rest⟩

/-- Regex test `/[a-zA-Z]{3,}/`: is there a run of at least three ASCII
letters? -/
def hasAlphaRun3 : List Char → Bool
  | a :: rest =>
    (match rest with
     | b :: c :: _ => a.isAlpha && b.isAlpha && c.isAlpha
     | _ => false) || hasAlphaRun3 rest
  | _ => false

/-- Regex test `/^\/?(dp|p|product|item|pd)$/` on a path segment. -/
def isIdSegment (s : String) : Bool :=
  let core := ["dp", "p", "product", "item", "pd"]
  core.contains s ||
    (match s.data with
     | '/' :: rest => core.contains ⟨rest⟩
     | _ => false)

/-- Apply `f` to every maximal run of `\w` characters, keeping the
separating characters. For the specific patterns of the source this
implements its `\b`-anchored replaces exactly: a match of
`\b[a-f0-9]{8,}\b` (resp. `\b\d{4,}\b`) must start right after a
non-word character (so at a token start, all of `[a-f0-9]`, `\d` being
word characters) and, because every shorter greedy backtrack still ends
on a word character, must extend to the token's end — i.e. those regexes
match exactly the whole-word tokens of the given length and alphabet.
Likewise `\b\w` matches exactly each token's first character. -/
def mapWordTokensAux (f : List Char → List Char) : List Char → List Char → List Char
  | acc, [] => if acc = [] then [] else f acc.reverse
  | acc, c :: rest =>
    if isWordChar c then mapWordTokensAux f (c :: acc) rest
    else (if acc = [] then [] else f acc.reverse) ++ c :: mapWordTokensAux f [] rest

/-- Apply `f` to every maximal `\w` run (see the doc comment above);
`mapWordTokensAux` carries the current run reversed. -/
def mapWordTokens (f : List Char → List Char) (l : List Char) : List Char :=
  mapWordTokensAux f [] l

/-- Scanner for `/\s+/g → ' '`; the flag says whether we are inside a
whitespace run already replaced by a space. -/
def collapseWsAllAux : Bool → List Char → List Char
  | _, [] => []
  | true, c :: rest =>
    if isJsWs c then collapseWsAllAux true rest
    else c :: collapseWsAllAux false rest
  | false, c :: rest =>
    if isJsWs c then ' ' :: collapseWsAllAux true rest
    else c :: collapseWsAllAux false rest

/-- Regex replace `/\s+/g → ' '`: every maximal whitespace run becomes a
single space. -/
def collapseWsAll (l : List Char) : List Char := collapseWsAllAux false l

/-- Models `String.prototype.trim` on a character list. -/
def jsTrimList (l : List Char) : List Char :=
  ((l.dropWhile isJsWs).reverse.dropWhile isJsWs).reverse

/-- Models `extractProductNameFromUrl(url)` (source lines 89–121):
choose the longest path segment with a 3+ letter run that is not a bare
item-ID marker; then de-slugify: separators to spaces, drop whole-word
8+ hex tokens and 4+ digit tokens, collapse whitespace, trim,
title-case; return it when longer than 3 characters. -/
def extractProductNameFromUrl (url : String) : Option String :=
  match urlParse url with
  | none => none
  | some (_, pathname) =>
    let segments := (splitOnPred (fun c => c = '/') pathname.data).filter
      (fun s => s ≠ [])
    let bestSlug := segments.foldl
      (fun best seg =>
        if seg.length > best.length && hasAlphaRun3 seg && !isIdSegment ⟨seg⟩
        then seg else best) []
    if bestSlug = [] then none
    else
      let n1 := bestSlug.map (fun c => if c = '-' || c = '_' then ' ' else c)
      let n2 := mapWordTokens
        (fun t => if 8 ≤ t.length && t.all isHexChar then [] else t) n1
      let n3 := mapWordTokens
        (fun t => if 4 ≤ t.length && t.all isDigitChar then [] else t) n2
      let n4 := jsTrimList (collapseWsAll n3)
      let name := mapWordTokens
        (fun t => match t with | [] => [] | c :: r => upperChar c :: r) n4
      if name.length > 3 then some ⟨name⟩ else none

/-! ## HTML cleaner (source lines 228–250)

`cleanHTML` is a chain of regex replaces. The block removals
`/<tag[\s\S]*?<\/tag>/gi` and `/<!--[\s\S]*?-->/g` share one shape: an
opening literal starting with `<`, a lazy middle, and a closing literal
ending in `>`; `removeBlocksJump` scans left to right, and on an occurrence
of the opener looks for the first occurrence of the closer after it —
exactly the lazy-match semantics; when no closer follows the first
opener occurrence the regex has no match at or after it, so the rest is
kept verbatim. -/

/-- Split at the first `'>'`: returns the characters before it and the
suffix after it. -/
def splitFirstGt : List Char → Option (List Char × List Char)
  | [] => none
  | c :: rest =>
    if c = '>' then some ([], rest)
    else (splitFirstGt rest).map (fun p => (c :: p.1, p.2))

theorem splitFirstGt_eq : ∀ {l b s : List Char},
    splitFirstGt l = some (b, s) → l = b ++ '>' :: s := by
  intro l
  induction l with
  | nil => intro b s h; simp [splitFirstGt] at h
  | cons c rest ih =>
    intro b s h
    by_cases hc : c = '>'
    · subst hc
      simp [splitFirstGt] at h
      obtain ⟨hb, hs⟩ := h
      subst hb; subst hs; rfl
    · rw [splitFirstGt, if_neg hc] at h
      obtain ⟨⟨b2, s2⟩, hm, hps⟩ := Option.map_eq_some'.mp h
      cases hps
      simp [ih hm]

/-- Drop everything through the first occurrence of the closing literal
`clInit ++ ['>']` (the initial part matched case-insensitively, as under
the regex `i` flag; `'>'` is case-less so matching it exactly is the
same thing). Returns the suffix after the closer, or `none` when the
closer never occurs. -/
def dropAfterClose (clInit : List Char) : List Char → Option (List Char)
  | [] => none
  | c :: rest =>
    if ciStarts clInit (c :: rest) ∧ ((c :: rest).drop clInit.length).head? = some '>' then
      some (((c :: rest).drop clInit.length).tail)
    else dropAfterClose clInit rest

theorem dropAfterClose_eq : ∀ {clInit l s : List Char},
    dropAfterClose clInit l = some s → ∃ pre, l = pre ++ '>' :: s := by
  intro clInit l
  induction l with
  | nil => intro s h; simp [dropAfterClose] at h
  | cons c rest ih =>
    intro s h
    rw [dropAfterClose] at h
    split at h
    · rename_i hcond
      obtain ⟨hci, hhd⟩ := hcond
      have h2 : ((c :: rest).drop clInit.length).tail = s := Option.some.inj h
      refine ⟨(c :: rest).take clInit.length, ?_⟩
      conv_lhs => rw [← List.take_append_drop clInit.length (c :: rest)]
      congr 1
      match hdrop : (c :: rest).drop clInit.length with
      | [] => rw [hdrop] at hhd; simp at hhd
      | x :: xs =>
        rw [hdrop] at hhd h2
        simp at hhd h2
        rw [hhd, h2]
    · obtain ⟨pre, hp⟩ := ih h
      exact ⟨c :: pre, by simp [hp]⟩

theorem dropAfterClose_length : ∀ {clInit l s : List Char},
    dropAfterClose clInit l = some s → s.length < l.length := by
  intro clInit l s h
  obtain ⟨pre, hp⟩ := dropAfterClose_eq h
  subst hp
  simp
  omega

/-- Models one `html.replace(/<op[\s\S]*?<\/op>/gi, '')` pass (and the
comment pass `/<!--[\s\S]*?-->/g`, whose letters-free literals make the
`i` flag irrelevant): `opTail` is the opening literal after its `<`,
`clInit ++ ['>']` the closing literal. Scan left to right; at an opener
occurrence delete through the first closer occurrence after it and
continue; when an opener occurrence has no later closer, the regex can
have no further match at all (any later match's closer would also lie
after this opener), so the remainder is kept verbatim. -/
def removeBlocksJump (opTail clInit : List Char) : List Char → List Char
  | [] => []
  | c :: rest =>
    if c = '<' ∧ ciStarts opTail rest then
      match hd : dropAfterClose clInit (rest.drop opTail.length) with
      | some suffix => removeBlocksJump opTail clInit suffix
      | none => c :: rest
    else c :: removeBlocksJump opTail clInit rest
termination_by l => l.length
decreasing_by
  · have h1 : suffix.length < (rest.drop opTail.length).length :=
      dropAfterClose_length hd
    have h2 : (rest.drop opTail.length).length ≤ rest.length := by
      simp only [List.length_drop]
      omega
    simp only [List.length_cons]
    omega
  · simp

/-- Models the pass `html.replace(/<[^>]+>/g, ' ')`: at a `'<'`, if some
`'>'` follows with at least one character in between, the whole span
becomes one space; a bare `"<>"` does not match (the `+` needs one
character) and a `'<'` with no `'>'` after it can start no match, nor
can anything after it. -/
def stripTagsJump : List Char → List Char
  | [] => []
  | c :: rest =>
    if c = '<' then
      match hs : splitFirstGt rest with
      | some (body, suffix) =>
        if body = [] then c :: stripTagsJump rest
        else ' ' :: stripTagsJump suffix
      | none => c :: rest
    else c :: stripTagsJump rest
termination_by l => l.length
decreasing_by
  · simp
  · have := splitFirstGt_eq hs
    have h2 : rest.length = body.length + 1 + suffix.length := by
      rw [this]; simp; omega
    simp only [List.length_cons]
    omega
  · simp

/-- Is the first character whitespace? (Helper for the `\s{2,}` pass.) -/
def headIsWs : List Char → Bool
  | d :: _ => isJsWs d
  | [] => false

/-- Scanner for `.replace(/\s{2,}/g, ' ')`; the flag says whether we are
inside a whitespace run whose space has already been written. -/
def collapseWs2Aux : Bool → List Char → List Char
  | _, [] => []
  | true, c :: rest =>
    if isJsWs c then collapseWs2Aux true rest
    else c :: collapseWs2Aux false rest
  | false, c :: rest =>
    if isJsWs c && headIsWs rest then ' ' :: collapseWs2Aux true rest
    else c :: collapseWs2Aux false rest

/-- Models the pass `.replace(/\s{2,}/g, ' ')`: a maximal whitespace run
of length at least two becomes one space; a lone whitespace character is
left as it is. -/
def collapseWs2 (l : List Char) : List Char := collapseWs2Aux false l

/-- Scanner form of a block removal: the counter says how many
characters of a matched block remain to be deleted; at zero a new match
may begin. -/
def removeBlocksAux (opTail clInit : List Char) : List Char → ℕ → List Char
  | [], _ => []
  | _ :: rest, skip + 1 => removeBlocksAux opTail clInit rest skip
  | c :: rest, 0 =>
    if c = '<' ∧ ciStarts opTail rest = true then
      match dropAfterClose clInit (rest.drop opTail.length) with
      | some suffix => removeBlocksAux opTail clInit rest (rest.length - suffix.length)
      | none => c :: rest
    else c :: removeBlocksAux opTail clInit rest 0

/-- Models one `html.replace(/<op[\s\S]*?<\/op>/gi, '')` pass (see
`removeBlocksJump` for the jump-style characterisation this scanner is
proved equal to). -/
def removeBlocks (opTail clInit l : List Char) : List Char :=
  removeBlocksAux opTail clInit l 0

/-- Scanner form of the pass `html.replace(/<[^>]+>/g, ' ')`: the
counter says how many characters of a matched tag remain to be
deleted. -/
def stripTagsAux : List Char → ℕ → List Char
  | [], _ => []
  | _ :: rest, skip + 1 => stripTagsAux rest skip
  | c :: rest, 0 =>
    if c = '<' then
      match splitFirstGt rest with
      | some (body, suffix) =>
        if body = [] then c :: stripTagsAux rest 0
        else ' ' :: stripTagsAux rest (rest.length - suffix.length)
      | none => c :: rest
    else c :: stripTagsAux rest 0

/-- Models the pass `html.replace(/<[^>]+>/g, ' ')` (see
`stripTagsJump` for the jump-style characterisation this scanner is
proved equal to). -/
def stripTags (l : List Char) : List Char := stripTagsAux l 0

/-- Models `cleanHTML(html)` (source lines 228–250) on a character
list: the eight block removals, comment removal, tag stripping, the
four entity decodes, whitespace collapsing, `trim()`, and
`slice(0, 8000)`, in source order. -/
def cleanHTMLList (l : List Char) : List Char :=
  List.take 8000 (jsTrimList (collapseWs2 (
    replaceAll "&gt;".data ">".data (
    replaceAll "&lt;".data "<".data (
    replaceAll "&amp;".data "&".data (
    replaceAll "&nbsp;".data " ".data (
    stripTags (
    removeBlocks "!--".data "--".data (
    removeBlocks "svg".data "</svg".data (
    removeBlocks "iframe".data "</iframe".data (
    removeBlocks "aside".data "</aside".data (
    removeBlocks "header".data "</header".data (
    removeBlocks "footer".data "</footer".data (
    removeBlocks "nav".data "</nav".data (
    removeBlocks "style".data "</style".data (
    removeBlocks "script".data "</script".data l))))))))))))))))

/-- Models `cleanHTML(html)` (source lines 228–250). -/
def cleanHTML (s : String) : String := ⟨cleanHTMLList s.data⟩

/-! ## Well-formed HTML

A string is taken to be well-formed markup when it alternates text and
tags: text characters are anything but `<` and `>`, and a tag is `<`,
then one or more characters none of which is `<` or `>`, then `>`.
(Entity references such as `&lt;` are ordinary text characters and are
perfectly well-formed.) The predicate is phrased as a three-state
scanner so that it composes over concatenation. -/

/-- Scanner state: in text, just after `<`, or inside a tag body. -/
inductive WfSt
  | text
  | opened
  | tag
deriving DecidableEq

/-- One scanner step; `none` is the dead state (ill-formed input). -/
def wfStep : WfSt → Char → Option WfSt
  | .text, c => if c = '<' then some .opened else if c = '>' then none else some .text
  | .opened, c => if c = '<' ∨ c = '>' then none else some .tag
  | .tag, c => if c = '>' then some .text else if c = '<' then none else some .tag

/-- Run the scanner over a list, staying dead once dead. -/
def wfRun : Option WfSt → List Char → Option WfSt
  | o, [] => o
  | none, _ :: _ => none
  | some st, c :: rest => wfRun (wfStep st c) rest

/-- Well-formed markup: the scanner accepts, starting and ending in
text. -/
def WellFormedHTML (s : String) : Prop :=
  wfRun (some WfSt.text) s.data = some WfSt.text

instance : DecidablePred WellFormedHTML := fun s =>
  inferInstanceAs (Decidable (wfRun (some WfSt.text) s.data = some WfSt.text))

theorem wfRun_none : ∀ (l : List Char), wfRun none l = none := by
  intro l; cases l <;> rfl

theorem wfRun_append : ∀ (a b : List Char) (o : Option WfSt),
    wfRun o (a ++ b) = wfRun (wfRun o a) b := by
  intro a
  induction a with
  | nil => intro b o; cases o <;> simp [wfRun, wfRun_none]
  | cons c a ih =>
    intro b o
    match o with
    | none => simp [wfRun_none]
    | some st => simp only [List.cons_append, wfRun]; exact ih b (wfStep st c)

theorem wfStep_gt : ∀ {st st' : WfSt}, wfStep st '>' = some st' → st' = .text := by
  intro st st' h
  cases st
  · simp [wfStep] at h
  · simp [wfStep] at h
  · simp [wfStep] at h; exact h.symm

theorem wfStep_lt : ∀ {st st' : WfSt}, wfStep st '<' = some st' → st = .text := by
  intro st st' h
  cases st
  · rfl
  · simp [wfStep] at h
  · simp [wfStep] at h

/-- A run surviving a list that ends in `'>'` lands in text state. -/
theorem wfRun_snoc_gt : ∀ {l : List Char} {o : Option WfSt} {st' : WfSt},
    wfRun o (l ++ ['>']) = some st' → st' = .text := by
  intro l o st' h
  rw [wfRun_append] at h
  match ho : wfRun o l with
  | none =>
    rw [ho] at h
    rw [wfRun_none] at h
    exact absurd h (by simp)
  | some st2 =>
    rw [ho] at h
    have h2 : wfStep st2 '>' = some st' := by
      have : wfRun (some st2) ['>'] = wfRun (wfStep st2 '>') [] := rfl
      rw [this] at h
      match hstep : wfStep st2 '>' with
      | none => rw [hstep, wfRun_none] at h; exact absurd h (by simp)
      | some st3 => rw [hstep] at h; exact congrArg some (Option.some.inj h)
    exact wfStep_gt h2

/-- Each block-removal pass preserves well-formedness: a match starts at
a `'<'` (so in text state) and ends just after a `'>'` (text state
again), so deleting it splices two text positions together. -/
theorem removeBlocksJump_wf (opTail clInit : List Char) :
    ∀ (n : ℕ) (l : List Char) (st : WfSt), l.length ≤ n →
      wfRun (some st) l = some WfSt.text →
      wfRun (some st) (removeBlocksJump opTail clInit l) = some WfSt.text := by
  intro n
  induction n with
  | zero =>
    intro l st hl h
    match l with
    | [] => simpa [removeBlocksJump] using h
    | c :: rest => simp at hl
  | succ n ih =>
    intro l st hl h
    match l with
    | [] => simpa [removeBlocksJump] using h
    | c :: rest =>
      rw [removeBlocksJump]
      by_cases hop : c = '<' ∧ ciStarts opTail rest = true
      · rw [if_pos hop]
        match hd : dropAfterClose clInit (rest.drop opTail.length) with
        | none => exact h
        | some suffix =>
          obtain ⟨pre, hpre⟩ := dropAfterClose_eq hd
          have hsplit : c :: rest =
              ((c :: (rest.take opTail.length ++ pre)) ++ ['>']) ++ suffix := by
            have hrd : rest = rest.take opTail.length ++ rest.drop opTail.length :=
              (List.take_append_drop opTail.length rest).symm
            conv_lhs => rw [hrd, hpre]
            simp
          rw [hsplit, wfRun_append] at h
          match hrun : wfRun (some st) ((c :: (rest.take opTail.length ++ pre)) ++ ['>']) with
          | none =>
            rw [hrun, wfRun_none] at h
            exact absurd h (by simp)
          | some st2 =>
            have hst2 : st2 = .text := wfRun_snoc_gt hrun
            rw [hrun, hst2] at h
            have hlen : suffix.length ≤ n := by
              have h1 : suffix.length < (rest.drop opTail.length).length :=
                dropAfterClose_length hd
              have h2 : (rest.drop opTail.length).length ≤ rest.length := by
                simp only [List.length_drop]; omega
              simp only [List.length_cons] at hl
              omega
            have hst : st = .text := by
              have h0 : wfStep st '<' ≠ none := by
                intro hno
                rw [hop.1] at hrun
                simp only [List.cons_append, wfRun, hno, wfRun_none] at hrun
                exact Option.noConfusion hrun
              match hstep : wfStep st '<' with
              | none => exact absurd hstep h0
              | some st3 => exact wfStep_lt hstep
            subst hst
            exact ih suffix WfSt.text hlen h
      · rw [if_neg hop]
        have hexp : wfRun (some st) (c :: rest) = wfRun (wfStep st c) rest := rfl
        rw [hexp] at h
        match hstep : wfStep st c with
        | none =>
          rw [hstep, wfRun_none] at h
          exact absurd h (by simp)
        | some st2 =>
          rw [hstep] at h
          have hlen : rest.length ≤ n := by
            simp only [List.length_cons] at hl; omega
          have hres := ih rest st2 hlen h
          have hexp2 : wfRun (some st) (c :: removeBlocksJump opTail clInit rest) =
              wfRun (wfStep st c) (removeBlocksJump opTail clInit rest) := rfl
          rw [hexp2, hstep]
          exact hres

/-- Reduction of `stripTagsJump` at a matched tag. -/
theorem stripTagsJump_cons_lt {rest body suffix : List Char}
    (hsp : splitFirstGt rest = some (body, suffix)) (hb : body ≠ []) :
    stripTagsJump ('<' :: rest) = ' ' :: stripTagsJump suffix := by
  rw [stripTagsJump, if_pos rfl]
  split
  · rename_i body2 suffix2 hs2
    rw [hsp] at hs2
    injection hs2 with hs2
    injection hs2 with h1 h2
    subst h1; subst h2
    rw [if_neg hb]
  · rename_i hs2
    rw [hsp] at hs2
    exact absurd hs2 (by simp)

/-- Reduction of `stripTagsJump` at a non-`'<'` character. -/
theorem stripTagsJump_cons_ne {c : Char} {rest : List Char} (hc : c ≠ '<') :
    stripTagsJump (c :: rest) = c :: stripTagsJump rest := by
  rw [stripTagsJump, if_neg hc]

/-- A surviving run from inside a tag body must reach a `'>'`: it splits
at the first `'>'` and resumes in text state. -/
theorem tagRun_split : ∀ (l : List Char), wfRun (some WfSt.tag) l = some WfSt.text →
    ∃ b s, splitFirstGt l = some (b, s) ∧ wfRun (some WfSt.text) s = some WfSt.text := by
  intro l
  induction l with
  | nil => intro h; exact absurd (Option.some.inj h) (by simp)
  | cons c rest ih =>
    intro h
    have hexp : wfRun (some WfSt.tag) (c :: rest) = wfRun (wfStep WfSt.tag c) rest := rfl
    rw [hexp] at h
    by_cases hgt : c = '>'
    · subst hgt
      have hstep : wfStep WfSt.tag '>' = some WfSt.text := rfl
      rw [hstep] at h
      exact ⟨[], rest, by simp [splitFirstGt], h⟩
    · by_cases hlt : c = '<'
      · subst hlt
        have hstep : wfStep WfSt.tag '<' = none := rfl
        rw [hstep, wfRun_none] at h
        exact absurd h (by simp)
      · have hstep : wfStep WfSt.tag c = some WfSt.tag := by
          simp [wfStep, hgt, hlt]
        rw [hstep] at h
        obtain ⟨b, s, hsplit, hrun⟩ := ih h
        refine ⟨c :: b, s, ?_, hrun⟩
        rw [splitFirstGt, if_neg hgt, hsplit]
        rfl

/-- Tag stripping of well-formed markup leaves no `'<'` or `'>'`. -/
theorem stripTagsJump_noAngle :
    ∀ (n : ℕ) (l : List Char), l.length ≤ n →
      wfRun (some WfSt.text) l = some WfSt.text →
      '<' ∉ stripTagsJump l ∧ '>' ∉ stripTagsJump l := by
  intro n
  induction n with
  | zero =>
    intro l hl h
    match l with
    | [] => simp [stripTagsJump]
    | c :: rest => simp at hl
  | succ n ih =>
    intro l hl h
    match l with
    | [] => simp [stripTagsJump]
    | c :: rest =>
      have hexp : wfRun (some WfSt.text) (c :: rest) = wfRun (wfStep WfSt.text c) rest := rfl
      rw [hexp] at h
      by_cases hlt : c = '<'
      · subst hlt
        have hstep : wfStep WfSt.text '<' = some WfSt.opened := rfl
        rw [hstep] at h
        match rest, h with
        | d :: rest2, h =>
          have hexp2 : wfRun (some WfSt.opened) (d :: rest2) =
              wfRun (wfStep WfSt.opened d) rest2 := rfl
          rw [hexp2] at h
          have hd : ¬(d = '<' ∨ d = '>') := by
            intro hor
            have : wfStep WfSt.opened d = none := by simp [wfStep, hor]
            rw [this, wfRun_none] at h
            exact absurd h (by simp)
          have hstep2 : wfStep WfSt.opened d = some WfSt.tag := by
            simp [wfStep, hd]
          rw [hstep2] at h
          obtain ⟨b, s, hsplit, hrun⟩ := tagRun_split rest2 h
          have hsplit' : splitFirstGt (d :: rest2) = some (d :: b, s) := by
            rw [splitFirstGt, if_neg (by intro hdd; exact hd (Or.inr hdd)), hsplit]
            rfl
          rw [stripTagsJump_cons_lt hsplit' (by simp)]
          have hslen : s.length ≤ n := by
            have := splitFirstGt_eq hsplit
            have h2 : rest2.length = b.length + 1 + s.length := by
              rw [this]; simp; omega
            simp only [List.length_cons] at hl
            omega
          have := ih s hslen hrun
          constructor
          · intro hmem
            rcases List.mem_cons.mp hmem with h1 | h1
            · exact absurd h1.symm (by decide)
            · exact this.1 h1
          · intro hmem
            rcases List.mem_cons.mp hmem with h1 | h1
            · exact absurd h1.symm (by decide)
            · exact this.2 h1
      · have hgt : ¬(c = '>') := by
          intro hc
          have : wfStep WfSt.text c = none := by simp [wfStep, hlt, hc]
          rw [this, wfRun_none] at h
          exact absurd h (by simp)
        have hstep : wfStep WfSt.text c = some WfSt.text := by
          simp [wfStep, hlt, hgt]
        rw [hstep] at h
        have hlen : rest.length ≤ n := by
          simp only [List.length_cons] at hl; omega
        have := ih rest hlen h
        rw [stripTagsJump_cons_ne hlt]
        constructor
        · intro hmem
          rcases List.mem_cons.mp hmem with h1 | h1
          · exact hlt h1.symm
          · exact this.1 h1
        · intro hmem
          rcases List.mem_cons.mp hmem with h1 | h1
          · exact hgt h1.symm
          · exact this.2 h1

/-- Reduction of `removeBlocksJump` at a matched opener with a closer. -/
theorem removeBlocksJump_cons_match {opTail clInit : List Char} {c : Char}
    {rest suffix : List Char} (hop : c = '<' ∧ ciStarts opTail rest = true)
    (hd : dropAfterClose clInit (rest.drop opTail.length) = some suffix) :
    removeBlocksJump opTail clInit (c :: rest) = removeBlocksJump opTail clInit suffix := by
  rw [removeBlocksJump, if_pos hop]
  split
  · rename_i suffix2 hd2
    rw [hd] at hd2
    injection hd2 with hd2
    rw [hd2]
  · rename_i hd2
    rw [hd] at hd2
    exact absurd hd2 (by simp)

/-- Reduction of `removeBlocksJump` at a matched opener without a closer. -/
theorem removeBlocksJump_cons_noclose {opTail clInit : List Char} {c : Char}
    {rest : List Char} (hop : c = '<' ∧ ciStarts opTail rest = true)
    (hd : dropAfterClose clInit (rest.drop opTail.length) = none) :
    removeBlocksJump opTail clInit (c :: rest) = c :: rest := by
  rw [removeBlocksJump, if_pos hop]
  split
  · rename_i suffix2 hd2
    rw [hd] at hd2
    exact absurd hd2 (by simp)
  · rfl

/-- Reduction of `removeBlocksJump` at a non-opener position. -/
theorem removeBlocksJump_cons_ne {opTail clInit : List Char} {c : Char}
    {rest : List Char} (hop : ¬(c = '<' ∧ ciStarts opTail rest = true)) :
    removeBlocksJump opTail clInit (c :: rest) = c :: removeBlocksJump opTail clInit rest := by
  rw [removeBlocksJump, if_neg hop]

/-- Block removal only deletes characters. -/
theorem removeBlocksJump_sub (opTail clInit : List Char) :
    ∀ (n : ℕ) (l : List Char), l.length ≤ n →
      ∀ {c : Char}, c ∈ removeBlocksJump opTail clInit l → c ∈ l := by
  intro n
  induction n with
  | zero =>
    intro l hl c hmem
    match l with
    | [] => simpa [removeBlocksJump] using hmem
    | c0 :: rest => simp at hl
  | succ n ih =>
    intro l hl c hmem
    match l with
    | [] => simpa [removeBlocksJump] using hmem
    | c0 :: rest =>
      by_cases hop : c0 = '<' ∧ ciStarts opTail rest = true
      · match hd : dropAfterClose clInit (rest.drop opTail.length) with
        | some suffix =>
          rw [removeBlocksJump_cons_match hop hd] at hmem
          have hlen : suffix.length ≤ n := by
            have h1 : suffix.length < (rest.drop opTail.length).length :=
              dropAfterClose_length hd
            have h2 : (rest.drop opTail.length).length ≤ rest.length := by
              simp only [List.length_drop]; omega
            simp only [List.length_cons] at hl
            omega
          have hsfx : c ∈ suffix := ih suffix hlen hmem
          obtain ⟨pre, hpre⟩ := dropAfterClose_eq hd
          have : c ∈ rest.drop opTail.length := by
            rw [hpre]; simp [hsfx]
          exact List.mem_cons_of_mem c0 (List.mem_of_mem_drop this)
        | none =>
          rw [removeBlocksJump_cons_noclose hop hd] at hmem
          exact hmem
      · rw [removeBlocksJump_cons_ne hop] at hmem
        rcases List.mem_cons.mp hmem with h1 | h1
        · simp [h1]
        · have hlen : rest.length ≤ n := by
            simp only [List.length_cons] at hl; omega
          exact List.mem_cons_of_mem c0 (ih rest hlen h1)

/-- Reduction of `stripTagsJump` at a tag with an empty body (`"<>"`). -/
theorem stripTagsJump_cons_lt_nil {rest suffix : List Char}
    (hsp : splitFirstGt rest = some ([], suffix)) :
    stripTagsJump ('<' :: rest) = '<' :: stripTagsJump rest := by
  rw [stripTagsJump, if_pos rfl]
  split
  · rename_i body2 suffix2 hs2
    rw [hsp] at hs2
    injection hs2 with hs2
    injection hs2 with h1 h2
    subst h1
    rw [if_pos rfl]
  · rename_i hs2
    rw [hsp] at hs2
    exact absurd hs2 (by simp)

/-- Reduction of `stripTagsJump` at a `'<'` with no `'>'` afterwards. -/
theorem stripTagsJump_cons_lt_none {rest : List Char}
    (hsp : splitFirstGt rest = none) :
    stripTagsJump ('<' :: rest) = '<' :: rest := by
  rw [stripTagsJump, if_pos rfl]
  split
  · rename_i body2 suffix2 hs2
    rw [hsp] at hs2
    exact absurd hs2 (by simp)
  · rfl

/-- Tag stripping only deletes characters or writes spaces. -/
theorem stripTagsJump_sub :
    ∀ (n : ℕ) (l : List Char), l.length ≤ n →
      ∀ {c : Char}, c ∈ stripTagsJump l → c ∈ l ∨ c = ' ' := by
  intro n
  induction n with
  | zero =>
    intro l hl c hmem
    match l with
    | [] => simp [stripTagsJump] at hmem
    | c0 :: rest => simp at hl
  | succ n ih =>
    intro l hl c hmem
    match l with
    | [] => simp [stripTagsJump] at hmem
    | c0 :: rest =>
      by_cases hlt : c0 = '<'
      · subst hlt
        match hsp : splitFirstGt rest with
        | some (body, suffix) =>
          match body, hsp with
          | [], hsp =>
            rw [stripTagsJump_cons_lt_nil hsp] at hmem
            rcases List.mem_cons.mp hmem with h1 | h1
            · simp [h1]
            · have hlen : rest.length ≤ n := by
                simp only [List.length_cons] at hl; omega
              rcases ih rest hlen h1 with h2 | h2
              · exact Or.inl (List.mem_cons_of_mem _ h2)
              · exact Or.inr h2
          | b0 :: brest, hsp =>
            rw [stripTagsJump_cons_lt hsp (by simp)] at hmem
            rcases List.mem_cons.mp hmem with h1 | h1
            · exact Or.inr h1
            · have hre := splitFirstGt_eq hsp
              have hlen : suffix.length ≤ n := by
                have : rest.length = (b0 :: brest).length + 1 + suffix.length := by
                  rw [hre]; simp; omega
                simp only [List.length_cons] at hl
                omega
              rcases ih suffix hlen h1 with h2 | h2
              · refine Or.inl (List.mem_cons_of_mem _ ?_)
                rw [hre]
                simp [h2]
              · exact Or.inr h2
        | none =>
          rw [stripTagsJump_cons_lt_none hsp] at hmem
          exact Or.inl hmem
      · rw [stripTagsJump_cons_ne hlt] at hmem
        rcases List.mem_cons.mp hmem with h1 | h1
        · simp [h1]
        · have hlen : rest.length ≤ n := by
            simp only [List.length_cons] at hl; omega
          rcases ih rest hlen h1 with h2 | h2
          · exact Or.inl (List.mem_cons_of_mem _ h2)
          · exact Or.inr h2

/-- A global replace with an absent pattern is the identity. -/
theorem replaceAll_id {pat rep : List Char} :
    ∀ {l : List Char}, containsSub pat l = false → replaceAll pat rep l = l := by
  intro l
  induction l with
  | nil => intro h; rfl
  | cons c rest ih =>
    intro h
    rw [containsSub, Bool.or_eq_false_iff] at h
    have hnm : ¬(pat ≠ [] ∧ pat.isPrefixOf (c :: rest) = true) := by
      intro hcon
      exact absurd h.1 (by simp [hcon.2])
    show replaceAllAux pat rep (c :: rest) 0 = c :: rest
    rw [replaceAllAux, if_neg hnm]
    exact congrArg (c :: ·) (ih h.2)

/-- A pattern whose first character is absent never occurs. -/
theorem containsSub_false_of_head {p0 : Char} {pats l : List Char}
    (h : p0 ∉ l) : containsSub (p0 :: pats) l = false := by
  induction l with
  | nil => rfl
  | cons c rest ih =>
    rw [containsSub, Bool.or_eq_false_iff]
    constructor
    · have hne : ¬(p0 = c) := by
        intro he; exact h (by simp [he])
      simp [List.isPrefixOf, hne]
    · exact ih (fun hm => h (List.mem_cons_of_mem c hm))

/-- Whitespace collapsing only deletes characters or writes spaces. -/
theorem collapseWs2Aux_sub :
    ∀ (l : List Char) (inRun : Bool) {c : Char},
      c ∈ collapseWs2Aux inRun l → c ∈ l ∨ c = ' ' := by
  intro l
  induction l with
  | nil =>
    intro inRun c hmem
    cases inRun <;> simp [collapseWs2Aux] at hmem
  | cons c0 rest ih =>
    intro inRun c hmem
    cases inRun
    · simp only [collapseWs2Aux] at hmem
      split at hmem
      · rcases List.mem_cons.mp hmem with h1 | h1
        · exact Or.inr h1
        · rcases ih true h1 with h2 | h2
          · exact Or.inl (List.mem_cons_of_mem c0 h2)
          · exact Or.inr h2
      · rcases List.mem_cons.mp hmem with h1 | h1
        · exact Or.inl (by simp [h1])
        · rcases ih false h1 with h2 | h2
          · exact Or.inl (List.mem_cons_of_mem c0 h2)
          · exact Or.inr h2
    · simp only [collapseWs2Aux] at hmem
      split at hmem
      · rcases ih true hmem with h2 | h2
        · exact Or.inl (List.mem_cons_of_mem c0 h2)
        · exact Or.inr h2
      · rcases List.mem_cons.mp hmem with h1 | h1
        · exact Or.inl (by simp [h1])
        · rcases ih false h1 with h2 | h2
          · exact Or.inl (List.mem_cons_of_mem c0 h2)
          · exact Or.inr h2

/-- Whitespace collapsing only deletes characters or writes spaces. -/
theorem collapseWs2_sub {l : List Char} {c : Char}
    (h : c ∈ collapseWs2 l) : c ∈ l ∨ c = ' ' :=
  collapseWs2Aux_sub l false h

/-- Trimming only deletes characters. -/
theorem jsTrimList_sub {l : List Char} {c : Char} (h : c ∈ jsTrimList l) : c ∈ l := by
  rw [jsTrimList] at h
  rw [List.mem_reverse] at h
  have h2 := (List.dropWhile_suffix isJsWs).sublist.mem h
  rw [List.mem_reverse] at h2
  exact (List.dropWhile_suffix isJsWs).sublist.mem h2

/-- A positive skip counter just drops that many characters. -/
theorem removeBlocksAux_skip (opTail clInit : List Char) :
    ∀ (l : List Char) (k : ℕ),
      removeBlocksAux opTail clInit l k = removeBlocksAux opTail clInit (l.drop k) 0 := by
  intro l
  induction l with
  | nil => intro k; cases k <;> rfl
  | cons c rest ih =>
    intro k
    cases k with
    | zero => rfl
    | succ k =>
      show removeBlocksAux opTail clInit rest k = _
      rw [ih k]
      rfl

/-- The scanner is the jump-style block removal. -/
theorem removeBlocks_eq_jump (opTail clInit : List Char) :
    ∀ (n : ℕ) (l : List Char), l.length ≤ n →
      removeBlocks opTail clInit l = removeBlocksJump opTail clInit l := by
  intro n
  induction n with
  | zero =>
    intro l hl
    match l with
    | [] =>
      have hj : removeBlocksJump opTail clInit [] = [] := by rw [removeBlocksJump]
      rw [hj]; rfl
    | c :: rest => simp at hl
  | succ n ih =>
    intro l hl
    match l with
    | [] =>
      have hj : removeBlocksJump opTail clInit [] = [] := by rw [removeBlocksJump]
      rw [hj]; rfl
    | c :: rest =>
      by_cases hop : c = '<' ∧ ciStarts opTail rest = true
      · match hd : dropAfterClose clInit (rest.drop opTail.length) with
        | some suffix =>
          obtain ⟨pre, hpre⟩ := dropAfterClose_eq hd
          have hrest : rest = (rest.take opTail.length ++ pre ++ ['>']) ++ suffix := by
            conv_lhs => rw [← List.take_append_drop opTail.length rest, hpre]
            simp
          obtain ⟨front, hfr⟩ : ∃ front, rest = front ++ suffix := ⟨_, hrest⟩
          have hdroplen : rest.drop (rest.length - suffix.length) = suffix := by
            have hfl : front.length = rest.length - suffix.length := by
              rw [hfr]; simp
            rw [← hfl, hfr]
            exact List.drop_left front suffix
          have hslen : suffix.length ≤ n := by
            have h1 : suffix.length < (rest.drop opTail.length).length :=
              dropAfterClose_length hd
            have h2 : (rest.drop opTail.length).length ≤ rest.length := by
              simp only [List.length_drop]; omega
            simp only [List.length_cons] at hl
            omega
          calc removeBlocks opTail clInit (c :: rest)
              = removeBlocksAux opTail clInit rest (rest.length - suffix.length) := by
                show removeBlocksAux opTail clInit (c :: rest) 0 = _
                rw [removeBlocksAux, if_pos hop, hd]
            _ = removeBlocksAux opTail clInit (rest.drop (rest.length - suffix.length)) 0 :=
                removeBlocksAux_skip opTail clInit rest _
            _ = removeBlocksAux opTail clInit suffix 0 := by rw [hdroplen]
            _ = removeBlocksJump opTail clInit suffix := ih suffix hslen
            _ = removeBlocksJump opTail clInit (c :: rest) :=
                (removeBlocksJump_cons_match hop hd).symm
        | none =>
          rw [removeBlocksJump_cons_noclose hop hd]
          show removeBlocksAux opTail clInit (c :: rest) 0 = _
          rw [removeBlocksAux, if_pos hop, hd]
      · rw [removeBlocksJump_cons_ne hop]
        have hlen : rest.length ≤ n := by
          simp only [List.length_cons] at hl; omega
        calc removeBlocks opTail clInit (c :: rest)
            = c :: removeBlocksAux opTail clInit rest 0 := by
              show removeBlocksAux opTail clInit (c :: rest) 0 = _
              rw [removeBlocksAux, if_neg hop]
          _ = c :: removeBlocksJump opTail clInit rest := by
              rw [show removeBlocksAux opTail clInit rest 0 =
                removeBlocksJump opTail clInit rest from ih rest hlen]

/-- The scanner equals the jump-style block removal. -/
theorem removeBlocks_eq (opTail clInit l : List Char) :
    removeBlocks opTail clInit l = removeBlocksJump opTail clInit l :=
  removeBlocks_eq_jump opTail clInit l.length l le_rfl

/-- A positive skip counter just drops that many characters. -/
theorem stripTagsAux_skip :
    ∀ (l : List Char) (k : ℕ), stripTagsAux l k = stripTagsAux (l.drop k) 0 := by
  intro l
  induction l with
  | nil => intro k; cases k <;> rfl
  | cons c rest ih =>
    intro k
    cases k with
    | zero => rfl
    | succ k =>
      show stripTagsAux rest k = _
      rw [ih k]
      rfl

/-- The scanner is the jump-style tag stripping. -/
theorem stripTags_eq_jump :
    ∀ (n : ℕ) (l : List Char), l.length ≤ n → stripTags l = stripTagsJump l := by
  intro n
  induction n with
  | zero =>
    intro l hl
    match l with
    | [] =>
      have hj : stripTagsJump [] = [] := by rw [stripTagsJump]
      rw [hj]; rfl
    | c :: rest => simp at hl
  | succ n ih =>
    intro l hl
    match l with
    | [] =>
      have hj : stripTagsJump [] = [] := by rw [stripTagsJump]
      rw [hj]; rfl
    | c :: rest =>
      by_cases hlt : c = '<'
      · subst hlt
        match hsp : splitFirstGt rest with
        | some (body, suffix) =>
          match body, hsp with
          | [], hsp =>
            rw [stripTagsJump_cons_lt_nil hsp]
            have hlen : rest.length ≤ n := by
              simp only [List.length_cons] at hl; omega
            calc stripTags ('<' :: rest)
                = '<' :: stripTagsAux rest 0 := by
                  show stripTagsAux ('<' :: rest) 0 = _
                  rw [stripTagsAux, if_pos rfl, hsp]
                  rfl
              _ = '<' :: stripTagsJump rest := by
                  rw [show stripTagsAux rest 0 = stripTagsJump rest from ih rest hlen]
          | b0 :: brest, hsp =>
            rw [stripTagsJump_cons_lt hsp (by simp)]
            have hre := splitFirstGt_eq hsp
            obtain ⟨front, hfr⟩ : ∃ front, rest = front ++ suffix :=
              ⟨(b0 :: brest) ++ ['>'], by rw [hre]; simp⟩
            have hdroplen : rest.drop (rest.length - suffix.length) = suffix := by
              have hfl : front.length = rest.length - suffix.length := by
                rw [hfr]; simp
              rw [← hfl, hfr]
              exact List.drop_left front suffix
            have hslen : suffix.length ≤ n := by
              have : rest.length = (b0 :: brest).length + 1 + suffix.length := by
                rw [hre]; simp; omega
              simp only [List.length_cons] at hl
              omega
            calc stripTags ('<' :: rest)
                = ' ' :: stripTagsAux rest (rest.length - suffix.length) := by
                  show stripTagsAux ('<' :: rest) 0 = _
                  rw [stripTagsAux, if_pos rfl, hsp]
                  rfl
              _ = ' ' :: stripTagsAux (rest.drop (rest.length - suffix.length)) 0 := by
                  rw [stripTagsAux_skip rest]
              _ = ' ' :: stripTagsAux suffix 0 := by rw [hdroplen]
              _ = ' ' :: stripTagsJump suffix := by
                  rw [show stripTagsAux suffix 0 = stripTagsJump suffix from ih suffix hslen]
        | none =>
          rw [stripTagsJump_cons_lt_none hsp]
          show stripTagsAux ('<' :: rest) 0 = _
          rw [stripTagsAux, if_pos rfl, hsp]
      · rw [stripTagsJump_cons_ne hlt]
        have hlen : rest.length ≤ n := by
          simp only [List.length_cons] at hl; omega
        calc stripTags (c :: rest)
            = c :: stripTagsAux rest 0 := by
              show stripTagsAux (c :: rest) 0 = _
              rw [stripTagsAux, if_neg hlt]
          _ = c :: stripTagsJump rest := by
              rw [show stripTagsAux rest 0 = stripTagsJump rest from ih rest hlen]

/-- The scanner equals the jump-style tag stripping. -/
theorem stripTags_eq (l : List Char) : stripTags l = stripTagsJump l :=
  stripTags_eq_jump l.length l le_rfl

/-- No two adjacent whitespace characters. -/
def WsSep (a b : Char) : Prop := ¬(isJsWs a = true ∧ isJsWs b = true)

/-- In run mode the scanner just skips the leading whitespace. -/
theorem collapseWs2Aux_true_eq :
    ∀ (l : List Char), collapseWs2Aux true l = collapseWs2Aux false (l.dropWhile isJsWs) := by
  intro l
  induction l with
  | nil => rfl
  | cons c rest ih =>
    by_cases hc : isJsWs c = true
    · rw [show collapseWs2Aux true (c :: rest) = collapseWs2Aux true rest from by
        rw [collapseWs2Aux, if_pos hc]]
      rw [ih, List.dropWhile_cons_of_pos hc]
    · rw [show collapseWs2Aux true (c :: rest) = c :: collapseWs2Aux false rest from by
        rw [collapseWs2Aux, if_neg hc]]
      rw [List.dropWhile_cons_of_neg hc]
      rw [show collapseWs2Aux false (c :: rest) = c :: collapseWs2Aux false rest from by
        rw [collapseWs2Aux, if_neg (by simp [hc])]]

/-- At a non-whitespace head the scanner keeps the character. -/
theorem collapseWs2Aux_cons_of_not_ws {d : Char} {r : List Char} (hd : isJsWs d = false) :
    collapseWs2Aux false (d :: r) = d :: collapseWs2Aux false r := by
  rw [collapseWs2Aux, if_neg (by simp [hd])]

/-- The output of the collapse pass has no two adjacent whitespace
characters (every run of two or more was replaced by a single space that
is followed by a non-whitespace character). -/
theorem collapseWs2_chain :
    ∀ (n : ℕ) (l : List Char), l.length ≤ n → List.Chain' WsSep (collapseWs2Aux false l) := by
  intro n
  induction n with
  | zero =>
    intro l hl
    match l with
    | [] => exact List.chain'_nil
    | c :: rest => simp at hl
  | succ n ih =>
    intro l hl
    match l with
    | [] => exact List.chain'_nil
    | c :: rest =>
      by_cases hcond : (isJsWs c && headIsWs rest) = true
      · rw [show collapseWs2Aux false (c :: rest) = ' ' :: collapseWs2Aux true rest from by
          rw [collapseWs2Aux, if_pos hcond]]
        rw [collapseWs2Aux_true_eq]
        rw [List.chain'_cons']
        have hlen : (rest.dropWhile isJsWs).length ≤ n := by
          have hsuf : rest.dropWhile isJsWs <:+ rest := List.dropWhile_suffix isJsWs
          have := hsuf.sublist.length_le
          simp only [List.length_cons] at hl
          omega
        refine ⟨?_, ih _ hlen⟩
        intro b hb
        match hdw : rest.dropWhile isJsWs with
        | [] => rw [hdw] at hb; simp [collapseWs2Aux] at hb
        | d :: r =>
          have hdws : isJsWs d = false := by
            have := List.head?_dropWhile_not isJsWs rest
            rw [hdw] at this
            simpa using this
          rw [hdw, collapseWs2Aux_cons_of_not_ws hdws] at hb
          simp at hb
          subst hb
          intro hcon
          rw [hdws] at hcon
          exact absurd hcon.2 (by simp)
      · rw [show collapseWs2Aux false (c :: rest) = c :: collapseWs2Aux false rest from by
          rw [collapseWs2Aux, if_neg hcond]]
        rw [List.chain'_cons']
        have hlen : rest.length ≤ n := by
          simp only [List.length_cons] at hl; omega
        refine ⟨?_, ih rest hlen⟩
        intro b hb
        by_cases hc : isJsWs c = true
        · have hrw : headIsWs rest = false := by
            revert hcond
            cases headIsWs rest <;> simp [hc]
          match rest with
          | [] => simp [collapseWs2Aux] at hb
          | d :: r =>
            have hdws : isJsWs d = false := by
              revert hrw
              simp [headIsWs]
            rw [collapseWs2Aux_cons_of_not_ws hdws] at hb
            simp at hb
            subst hb
            intro hcon
            rw [hdws] at hcon
            exact absurd hcon.2 (by simp)
        · intro hcon
          exact hc hcon.1

/-- The collapse pass fixes anything with no adjacent whitespace. -/
theorem collapseWs2_id :
    ∀ {l : List Char}, List.Chain' WsSep l → collapseWs2Aux false l = l := by
  intro l
  induction l with
  | nil => intro h; rfl
  | cons c rest ih =>
    intro h
    have htl : List.Chain' WsSep rest := h.tail
    have hcond : (isJsWs c && headIsWs rest) = false := by
      by_cases hc : isJsWs c = true
      · match rest with
        | [] => simp [headIsWs, hc]
        | d :: r =>
          have := (List.chain'_cons'.mp h).1 d (by simp)
          have hd : isJsWs d = false := by
            by_cases hdd : isJsWs d = true
            · exact absurd ⟨hc, hdd⟩ this
            · simpa using hdd
          simp [headIsWs, hd]
      · have hc2 : isJsWs c = false := by simpa using hc
        simp [hc2]
    rw [collapseWs2Aux, if_neg (by simp [hcond]), ih htl]

/-- Dropping a stable prefix keeps the last element. -/
theorem getLast?_dropWhile_of_ne_nil (p : Char → Bool) :
    ∀ (l : List Char), l.dropWhile p ≠ [] → (l.dropWhile p).getLast? = l.getLast? := by
  intro l
  induction l with
  | nil => intro h; simp at h
  | cons c rest ih =>
    intro h
    by_cases hc : p c = true
    · rw [List.dropWhile_cons_of_pos hc] at h ⊢
      rw [ih h]
      have hrest : rest ≠ [] := by
        intro he
        rw [he] at h
        simp at h
      match rest, hrest with
      | d :: r, _ => rw [List.getLast?_cons_cons]
    · rw [List.dropWhile_cons_of_neg hc]

/-- The head of a trimmed list is not whitespace. -/
theorem jsTrimList_head {l : List Char} {c : Char}
    (h : (jsTrimList l).head? = some c) : isJsWs c = false := by
  rw [jsTrimList] at h
  rw [List.head?_reverse] at h
  have hne : (l.dropWhile isJsWs).reverse.dropWhile isJsWs ≠ [] := by
    intro he
    rw [he] at h
    simp at h
  rw [getLast?_dropWhile_of_ne_nil isJsWs _ hne] at h
  rw [List.getLast?_reverse] at h
  have := List.head?_dropWhile_not isJsWs l
  rw [h] at this
  simpa using this

/-- The last element of a trimmed list is not whitespace. -/
theorem jsTrimList_getLast {l : List Char} {c : Char}
    (h : (jsTrimList l).getLast? = some c) : isJsWs c = false := by
  rw [jsTrimList] at h
  rw [List.getLast?_reverse] at h
  have := List.head?_dropWhile_not isJsWs (l.dropWhile isJsWs).reverse
  rw [h] at this
  simpa using this

/-- Trimming fixes a list whose ends are not whitespace. -/
theorem jsTrimList_id {l : List Char}
    (hh : ∀ c, l.head? = some c → isJsWs c = false)
    (hl : ∀ c, l.getLast? = some c → isJsWs c = false) :
    jsTrimList l = l := by
  have h1 : l.dropWhile isJsWs = l := by
    match l with
    | [] => rfl
    | c :: rest =>
      have := hh c rfl
      rw [List.dropWhile_cons_of_neg (by simp [this])]
  rw [jsTrimList, h1]
  have h2 : l.reverse.dropWhile isJsWs = l.reverse := by
    match hrev : l.reverse with
    | [] => rfl
    | c :: rest =>
      have hc : l.getLast? = some c := by
        rw [← List.head?_reverse, hrev]
        rfl
      have := hl c hc
      rw [List.dropWhile_cons_of_neg (by simp [this])]
  rw [h2, List.reverse_reverse]

/-- A take below the cap is the whole list. -/
theorem take_eq_of_length_lt {l : List Char} {n : ℕ}
    (h : (l.take n).length < n) : l.take n = l := by
  rw [List.length_take] at h
  exact List.take_of_length_le (by omega)

/-- Adjacent-whitespace freedom survives a suffix. -/
theorem chainWsSep_dropWhile {l : List Char} (p : Char → Bool)
    (h : List.Chain' WsSep l) : List.Chain' WsSep (l.dropWhile p) := by
  have := List.takeWhile_append_dropWhile p l
  have h2 : List.Chain' WsSep (l.takeWhile p ++ l.dropWhile p) := by rw [this]; exact h
  exact (List.chain'_append.mp h2).2.1

/-- Adjacent-whitespace freedom survives reversal. -/
theorem chainWsSep_reverse {l : List Char}
    (h : List.Chain' WsSep l) : List.Chain' WsSep l.reverse := by
  rw [List.chain'_reverse]
  exact h.imp (fun a b hab => fun hcon => hab ⟨hcon.2, hcon.1⟩)

/-- Adjacent-whitespace freedom survives a prefix. -/
theorem chainWsSep_take {l : List Char} (n : ℕ)
    (h : List.Chain' WsSep l) : List.Chain' WsSep (l.take n) := by
  have := List.take_append_drop n l
  have h2 : List.Chain' WsSep (l.take n ++ l.drop n) := by rw [this]; exact h
  exact (List.chain'_append.mp h2).1

/-- Adjacent-whitespace freedom survives trimming. -/
theorem chainWsSep_jsTrimList {l : List Char}
    (h : List.Chain' WsSep l) : List.Chain' WsSep (jsTrimList l) := by
  rw [jsTrimList]
  exact chainWsSep_reverse (chainWsSep_dropWhile isJsWs
    (chainWsSep_reverse (chainWsSep_dropWhile isJsWs h)))

/-- Without a `'<'` a block removal changes nothing. -/
theorem removeBlocks_id {opTail clInit : List Char} :
    ∀ {l : List Char}, '<' ∉ l → removeBlocks opTail clInit l = l := by
  intro l
  induction l with
  | nil => intro h; rfl
  | cons c rest ih =>
    intro h
    have hc : ¬(c = '<' ∧ ciStarts opTail rest = true) := by
      intro hcon
      exact h (by simp [hcon.1])
    show removeBlocksAux opTail clInit (c :: rest) 0 = c :: rest
    rw [removeBlocksAux, if_neg hc]
    exact congrArg (c :: ·) (ih (fun hm => h (List.mem_cons_of_mem c hm)))

/-- Without a `'<'` tag stripping changes nothing. -/
theorem stripTags_id : ∀ {l : List Char}, '<' ∉ l → stripTags l = l := by
  intro l
  induction l with
  | nil => intro h; rfl
  | cons c rest ih =>
    intro h
    have hc : ¬(c = '<') := by
      intro hcon
      exact h (by simp [hcon])
    show stripTagsAux (c :: rest) 0 = c :: rest
    rw [stripTagsAux, if_neg hc]
    exact congrArg (c :: ·) (ih (fun hm => h (List.mem_cons_of_mem c hm)))

/-- Bounds for the tail of the cleaning pipeline (tag stripping
onwards), for any well-formed ampersand-free intermediate text. -/
theorem cleanTail_bounds (m : List Char)
    (hw : wfRun (some WfSt.text) m = some WfSt.text) (ha : '&' ∉ m) :
    (List.take 8000 (jsTrimList (collapseWs2
      (replaceAll "&gt;".data ">".data (replaceAll "&lt;".data "<".data
      (replaceAll "&amp;".data "&".data (replaceAll "&nbsp;".data " ".data
      (stripTags m)))))))).length ≤ 8000 ∧
    '<' ∉ List.take 8000 (jsTrimList (collapseWs2
      (replaceAll "&gt;".data ">".data (replaceAll "&lt;".data "<".data
      (replaceAll "&amp;".data "&".data (replaceAll "&nbsp;".data " ".data
      (stripTags m))))))) ∧
    '>' ∉ List.take 8000 (jsTrimList (collapseWs2
      (replaceAll "&gt;".data ">".data (replaceAll "&lt;".data "<".data
      (replaceAll "&amp;".data "&".data (replaceAll "&nbsp;".data " ".data
      (stripTags m))))))) := by
  have hT : '<' ∉ stripTags m ∧ '>' ∉ stripTags m := by
    rw [stripTags_eq]
    exact stripTagsJump_noAngle _ _ le_rfl hw
  have haT : '&' ∉ stripTags m := by
    intro hc
    rw [stripTags_eq] at hc
    rcases stripTagsJump_sub _ _ le_rfl hc with h | h
    · exact ha h
    · exact absurd h (by decide)
  have hc1 : containsSub "&nbsp;".data (stripTags m) = false := containsSub_false_of_head haT
  have hd1 : replaceAll "&nbsp;".data " ".data (stripTags m) = stripTags m := replaceAll_id hc1
  have hc2 : containsSub "&amp;".data (stripTags m) = false := containsSub_false_of_head haT
  have hd2 : replaceAll "&amp;".data "&".data (stripTags m) = stripTags m := replaceAll_id hc2
  have hc3 : containsSub "&lt;".data (stripTags m) = false := containsSub_false_of_head haT
  have hd3 : replaceAll "&lt;".data "<".data (stripTags m) = stripTags m := replaceAll_id hc3
  have hc4 : containsSub "&gt;".data (stripTags m) = false := containsSub_false_of_head haT
  have hd4 : replaceAll "&gt;".data ">".data (stripTags m) = stripTags m := replaceAll_id hc4
  rw [hd1, hd2, hd3, hd4]
  refine ⟨List.length_take_le 8000 _, ?_, ?_⟩
  · intro hc
    have hc2 := jsTrimList_sub ((List.take_sublist 8000 _).mem hc)
    rcases collapseWs2_sub hc2 with h | h
    · exact hT.1 h
    · exact absurd h (by decide)
  · intro hc
    have hc2 := jsTrimList_sub ((List.take_sublist 8000 _).mem hc)
    rcases collapseWs2_sub hc2 with h | h
    · exact hT.2 h
    · exact absurd h (by decide)

/-- Core of the reducer contract: on well-formed markup with no
ampersand (so no entity can decode into a bracket), the cleaned text
fits the cap and carries no angle bracket. -/
theorem cleanHTMLList_bounds (l : List Char)
    (hwf : wfRun (some WfSt.text) l = some WfSt.text) (hamp : '&' ∉ l) :
    (cleanHTMLList l).length ≤ 8000 ∧ '<' ∉ cleanHTMLList l ∧ '>' ∉ cleanHTMLList l := by
  have hmk : ∀ (opT clI m : List Char),
      wfRun (some WfSt.text) m = some WfSt.text ∧ '&' ∉ m →
      wfRun (some WfSt.text) (removeBlocks opT clI m) = some WfSt.text ∧
        '&' ∉ removeBlocks opT clI m := by
    intro opT clI m hm
    rw [removeBlocks_eq]
    exact ⟨removeBlocksJump_wf opT clI m.length m WfSt.text le_rfl hm.1,
      fun hc => hm.2 (removeBlocksJump_sub opT clI m.length m le_rfl hc)⟩
  have h1 := hmk "script".data "</script".data l ⟨hwf, hamp⟩
  have h2 := hmk "style".data "</style".data _ h1
  have h3 := hmk "nav".data "</nav".data _ h2
  have h4 := hmk "footer".data "</footer".data _ h3
  have h5 := hmk "header".data "</header".data _ h4
  have h6 := hmk "aside".data "</aside".data _ h5
  have h7 := hmk "iframe".data "</iframe".data _ h6
  have h8 := hmk "svg".data "</svg".data _ h7
  have h9 := hmk "!--".data "--".data _ h8
  exact cleanTail_bounds _ h9.1 h9.2

/-- Core idempotence: the cleaning pipeline fixes any text with no
`'<'`, none of the four entity sequences, no adjacent whitespace,
non-whitespace ends, and length within the cap. -/
theorem cleanHTMLList_fix (s : List Char)
    (hlt : '<' ∉ s)
    (hn1 : containsSub "&nbsp;".data s = false)
    (hn2 : containsSub "&amp;".data s = false)
    (hn3 : containsSub "&lt;".data s = false)
    (hn4 : containsSub "&gt;".data s = false)
    (hchain : List.Chain' WsSep s)
    (hhead : ∀ c, s.head? = some c → isJsWs c = false)
    (hlast : ∀ c, s.getLast? = some c → isJsWs c = false)
    (hlen : s.length ≤ 8000) :
    cleanHTMLList s = s := by
  rw [cleanHTMLList]
  rw [removeBlocks_id hlt, removeBlocks_id hlt, removeBlocks_id hlt,
    removeBlocks_id hlt, removeBlocks_id hlt, removeBlocks_id hlt,
    removeBlocks_id hlt, removeBlocks_id hlt, removeBlocks_id hlt]
  rw [stripTags_id hlt]
  rw [replaceAll_id hn1, replaceAll_id hn2, replaceAll_id hn3, replaceAll_id hn4]
  rw [show collapseWs2 s = s from collapseWs2_id hchain]
  rw [jsTrimList_id hhead hlast]
  exact List.take_of_length_le hlen

/-! ## The POST /scrape handler (source lines 300–426)

The handler is embedded as a pure function of a `ScrapeEnv` recording
the request body and the outcome of every external call: the Puppeteer
fetch, the Axios fetch, the Gemini extraction, the exchange-rate fetch,
and a possible unexpected error caught by the outer `catch`. -/

/-- The JSON object returned by the Gemini extraction step (a field is
`none` when the parsed JSON lacks it). -/
structure GeminiExtraction where
  name : Option String
  priceText : Option String
  currency : Option String
  description : Option (List String)
  image : Option String

/-- The product JSON the `/scrape` handler sends on `res.json` (fields
that a given path leaves out of the object literal are `none`). -/
structure NormalizedProduct where
  blocked : Bool
  name : String
  searchQuery : Option String
  price : Option ℤ
  priceText : Option String
  originalPrice : Option String
  currency : Option String
  description : List String
  image : Option String
  url : Option String
  websiteName : String
  blockerMessage : Option String

/-- Outcome of one `/scrape` request: an error status with message, or
a product JSON. -/
inductive ScrapeResult
  | err (status : ℕ) (msg : String)
  | product (p : NormalizedProduct)

/-- Environment of one `/scrape` request. `puppeteerHtml`/`axiosHtml`
are `none` when that fetch threw; `gemini` is `none` when all models
failed; `rateFetch` is the exchange-rate network outcome; `oops` is a
message of an unexpected error reaching the outer `catch` (the embedded
pipeline itself never throws). -/
structure ScrapeEnv where
  url : Option String
  isCloud : Bool
  puppeteerHtml : Option String
  axiosHtml : Option String
  gemini : Option GeminiExtraction
  rateState : RateState
  now : ℤ
  rateFetch : Option (List (String × ℚ))
  oops : Option String

/-- The `html` variable after the fetch step together with the
`fetchFailed` flag (source lines 329–351): Puppeteer is only tried
locally; Axios runs when `html` is still falsy; `fetchFailed` is set
only when Axios throws. -/
def scrapeHtmlFF (env : ScrapeEnv) : Option String × Bool :=
  let html1 : Option String := if !env.isCloud then env.puppeteerHtml else none
  if truthyStr html1 then (html1, false)
  else
    match env.axiosHtml with
    | some h => (some h, false)
    | none => (html1, true)

/-- The blocked-site condition of source line 354:
`fetchFailed || !html || html.length < 500`. -/
def fetchBlockedCond (env : ScrapeEnv) : Bool :=
  (scrapeHtmlFF env).2 || !(truthyStr (scrapeHtmlFF env).1) ||
    (match (scrapeHtmlFF env).1 with
     | some h => decide (h.length < 500)
     | none => true)

/-- Models the inner helper `blockedResponse(reason)` (source lines
308–323): a blocked product JSON built from the URL slug. -/
def blockedResponse (url websiteName : String) : ScrapeResult :=
  let slugName := extractProductNameFromUrl url
  ScrapeResult.product
    { blocked := true
      name := match slugName with
        | some s => if s = "" then "Product" else s
        | none => "Product"
      searchQuery := slugName
      price := none
      priceText := none
      originalPrice := none
      currency := none
      description := []
      image := some ""
      url := some url
      websiteName := websiteName
      blockerMessage := some ("⛔ " ++ websiteName ++
        " has blocked access to this page. We\x27ve extracted the product name from the URL and will search for similar products.") }

/-- Models the outer `catch` (source lines 406–425): a slug-derived
blocked payload when the URL yields a name, else a 500. -/
def scrapeCatch (url websiteName msg : String) : ScrapeResult :=
  match extractProductNameFromUrl url with
  | some slug =>
    if slug = "" then ScrapeResult.err 500 ("Failed to extract product data: " ++ msg)
    else ScrapeResult.product
      { blocked := true
        name := slug
        searchQuery := some slug
        price := none
        priceText := none
        originalPrice := none
        currency := none
        description := []
        image := some ""
        url := some url
        websiteName := websiteName
        blockerMessage := some ("⛔ " ++ websiteName ++
          " has blocked access to this page. Showing similar products based on the URL.") }
  | none => ScrapeResult.err 500 ("Failed to extract product data: " ++ msg)

/-- The name-validation test of source lines 379–381:
`!name || name.toLowerCase().includes('unknown') || name.trim().length < 3`. -/
def isUnknownName (name : Option String) : Bool :=
  match name with
  | none => true
  | some n =>
    n = "" || containsSub "unknown".data (n.data.map lowerChar) ||
      decide ((jsTrimList n.data).length < 3)

/-- The currency resolution of source line 389:
`extracted.currency || detectCurrency(extracted.priceText)`. -/
def currencyChoice (ext : GeminiExtraction) : String :=
  match ext.currency with
  | some c => if c = "" then detectCurrency ext.priceText else c
  | none => detectCurrency ext.priceText

/-- The try-block of the `/scrape` handler (source lines 325–404),
after the URL check and `websiteName` computation. -/
def scrapeMain (env : ScrapeEnv) (url websiteName : String) : ScrapeResult :=
  if fetchBlockedCond env then blockedResponse url websiteName
  else
    match (scrapeHtmlFF env).1 with
    | none => blockedResponse url websiteName
    | some h =>
      let cleaned := cleanHTML h
      if cleaned.length < 200 then blockedResponse url websiteName
      else
        match env.gemini with
        | none => blockedResponse url websiteName
        | some ext =>
          if isUnknownName ext.name then blockedResponse url websiteName
          else
            let numericPrice := parseNumericPrice ext.priceText
            let currency := currencyChoice ext
            let priceINR := toINRval env.rateState env.now env.rateFetch
              (numericPrice.map some) currency
            ScrapeResult.product
              { blocked := false
                name := jsOr ext.name ""
                searchQuery := some (jsOr ext.name "")
                price := priceINR
                priceText :=
                  match priceINR with
                  | some p =>
                    if p ≠ 0 then some ("₹" ++ toLocaleEnIN p) else ext.priceText
                  | none => ext.priceText
                originalPrice := ext.priceText
                currency := some currency
                description := (ext.description.getD []).take 3
                image := some (jsOr ext.image "")
                url := some url
                websiteName := websiteName
                blockerMessage := none }

/-- Models the `/scrape` route handler (source lines 301–426). -/
def scrape (env : ScrapeEnv) : ScrapeResult :=
  match env.url with
  | none => ScrapeResult.err 400 "URL is required"
  | some url =>
    if url = "" then ScrapeResult.err 400 "URL is required"
    else
      match env.oops with
      | some msg => scrapeCatch url (getWebsiteName url) msg
      | none => scrapeMain env url (getWebsiteName url)

/-! ## The POST /search handler (source lines 428–507) -/

/-- Percent-encoding safe set of `encodeURIComponent`. -/
def encSafe (c : Char) : Bool :=
  c.isAlpha || c.isDigit ||
    ['-', '_', '.', '!', '~', '*', Char.ofNat 39, '(', ')'].contains c

/-- UTF-8 bytes of one character (as numbers). -/
def utf8Bytes (c : Char) : List ℕ :=
  let n := c.toNat
  if n < 0x80 then [n]
  else if n < 0x800 then [0xC0 + n / 0x40, 0x80 + n % 0x40]
  else if n < 0x10000 then
    [0xE0 + n / 0x1000, 0x80 + n / 0x40 % 0x40, 0x80 + n % 0x40]
  else
    [0xF0 + n / 0x40000, 0x80 + n / 0x1000 % 0x40, 0x80 + n / 0x40 % 0x40,
      0x80 + n % 0x40]

/-- Upper-case hex digit. -/
def hexDigit (n : ℕ) : Char :=
  if n < 10 then Char.ofNat (48 + n) else Char.ofNat (55 + n)

/-- Models `encodeURIComponent`: unreserved characters pass, everything
else becomes `%HH` per UTF-8 byte. -/
def encodeURIComponent (s : String) : String :=
  ⟨(s.data.map (fun c =>
      if encSafe c then [c]
      else (utf8Bytes c).map (fun b => ['%', hexDigit (b / 16), hexDigit (b % 16)]) |>.flatten)).flatten⟩

/-- One Google-Shopping result as the source reads it. `rating` and
`reviews` are numbers in the API; they only ever appear interpolated
into strings, so they are modelled by their rendered digits. -/
structure SerpItem where
  title : Option String
  price : Option String
  link : Option String
  product_link : Option String
  source : Option String
  rating : Option String
  reviews : Option String
  delivery : Option String
  thumbnail : Option String

/-- One entry of a `/search` response. -/
structure SearchProduct where
  name : String
  price : Option ℤ
  priceText : String
  originalPrice : Option String
  description : List String
  image : String
  url : String
  websiteName : String

/-- Outcome of one `/search` request; `fallback` mirrors the
`fallback: true` flag (`false` = the field is absent). -/
inductive SearchResult
  | err (status : ℕ) (msg : String)
  | ok (products : List SearchProduct) (fallback : Bool)

/-- Environment of one `/search` request: the body, the configured key,
the SerpAPI call outcome (`none` = it threw), and the rate-cache
state. -/
structure SearchEnv where
  productName : Option String
  serpKey : Option String
  serpItems : Option (List SerpItem)
  rateState : RateState
  now : ℤ
  rateFetch : Option (List (String × ℚ))

/-- Mapping of one SerpAPI result to a comparison entry (source lines
455–475). -/
def serpEntry (env : SearchEnv) (productName : String) (item : SerpItem) : SearchProduct :=
  let numericPrice := parseNumericPrice item.price
  let currency := detectCurrency item.price
  let priceINR := toINRval env.rateState env.now env.rateFetch
    (numericPrice.map some) currency
  let productUrl := jsOr item.link (jsOr item.product_link "#")
  { name := jsOr item.title productName
    price := priceINR
    priceText :=
      match priceINR with
      | some p => if p ≠ 0 then "₹" ++ toLocaleEnIN p else jsOr item.price "N/A"
      | none => jsOr item.price "N/A"
    originalPrice := item.price
    description :=
      [match item.source with
        | some s => if s = "" then none else some ("Sold by: " ++ s)
        | none => none,
       match item.rating with
        | some r =>
          if r = "" then none
          else some ("Rating: " ++ r ++ "/5 (" ++ jsOr item.reviews "0" ++ " reviews)")
        | none => none,
       match item.delivery with
        | some d => if d = "" then some "Check website for delivery info"
          else some ("Delivery: " ++ d)
        | none => some "Check website for delivery info"].filterMap id
    image := jsOr item.thumbnail ""
    url := productUrl
    websiteName := jsOr item.source (getWebsiteName productUrl) }

/-- The static retailer table of the fallback path (source lines
486–490). -/
def retailers : List (String × String × String) :=
  [("Amazon India", "amazon.in", "s?k="),
   ("Flipkart", "flipkart.com", "search?q="),
   ("Myntra", "myntra.com", "search?rawQuery=")]

/-- The fallback entries (source lines 492–504). -/
def searchFallbackProducts (productName : String) : List SearchProduct :=
  retailers.map (fun r =>
    { name := productName
      price := none
      priceText := "Check website"
      originalPrice := none
      description :=
        ["Search results from " ++ r.1,
         "Click the link to view current pricing in ₹",
         "Prices may vary by seller"]
      image := ""
      url := "https://www." ++ r.2.1 ++ "/" ++ r.2.2 ++ encodeURIComponent productName
      websiteName := r.1 })

/-- Models the `/search` route handler (source lines 429–507). -/
def searchEndpoint (env : SearchEnv) : SearchResult :=
  match env.productName with
  | none => SearchResult.err 400 "Product name is required"
  | some pn =>
    if pn = "" then SearchResult.err 400 "Product name is required"
    else
      let keyConfigured :=
        match env.serpKey with
        | some k => k ≠ "" && k ≠ "your_serpapi_key_here"
        | none => false
      if keyConfigured then
        match env.serpItems with
        | some items => SearchResult.ok ((items.take 3).map (serpEntry env pn)) false
        | none => SearchResult.ok (searchFallbackProducts pn) true
      else SearchResult.ok (searchFallbackProducts pn) true

/-! ## Auxiliary definitions for the claim theorems -/

/-- Absence of every currency marker `detectCurrency` looks for:
no `₹`, no case-insensitive `inr`, no `€`, `£` or `¥` (vacuously true
for a missing string). -/
def noCurrencyMarker : Option String → Bool
  | none => true
  | some str =>
    !(str.data.contains '₹') &&
    !(containsSub "inr".data (str.data.map lowerChar)) &&
    !(str.data.contains '€') &&
    !(str.data.contains '£') &&
    !(str.data.contains '¥')

/-- A rate snapshot holding only a USD rate of 0.012, freshly stamped at
time 0. -/
def stUSD : RateState := ⟨[("USD", 0.012)], 0⟩

/-- A request whose fetches both fail: the pipeline must degrade to the
blocked path. -/
def envFetchFail : ScrapeEnv :=
  { url := some "https://example.com/p/some-product-name/"
    isCloud := true
    puppeteerHtml := none
    axiosHtml := none
    gemini := none
    rateState := stUSD
    now := 0
    rateFetch := none
    oops := none }

/-- A second fetch-failure request (for the blocked-payload claim). -/
def envBlockedC2 : ScrapeEnv :=
  { url := some "https://shop.example.com/items/mega-gadget-pro/"
    isCloud := true
    puppeteerHtml := none
    axiosHtml := none
    gemini := none
    rateState := stUSD
    now := 0
    rateFetch := none
    oops := none }

/-- The extraction of the zero-price scenario: a tiny foreign price that
rounds to zero rupees. -/
def extTiny : GeminiExtraction :=
  { name := some "Tiny Widget"
    priceText := some "$0.004"
    currency := none
    description := some ["a", "b", "c", "d"]
    image := none }

/-- A successful request whose converted price rounds to the integer 0:
`$0.004` at the USD rate 0.012 gives `round(0.004 / 0.012) = 0`. -/
def envZeroPrice : ScrapeEnv :=
  { url := some "https://shop.example.com/items/tiny-widget-pro/"
    isCloud := true
    puppeteerHtml := none
    axiosHtml := some ⟨List.replicate 500 'a'⟩
    gemini := some extTiny
    rateState := stUSD
    now := 0
    rateFetch := none
    oops := none }

/-- A search request with no configured key. -/
def envSearchNoKey : SearchEnv :=
  { productName := some "phone"
    serpKey := none
    serpItems := none
    rateState := stUSD
    now := 0
    rateFetch := none }

/-- Two strings with the same characters are equal. -/
theorem strEq_of_data {s t : String} (h : s.data = t.data) : s = t := by
  cases s; cases t; simp_all

set_option maxHeartbeats 8000000 in
/-- Unfolding of `cleanHTML` to the list pipeline. -/
theorem cleanHTML_data (s : String) : (cleanHTML s).data = cleanHTMLList s.data := rfl

/-- The length of a string is the length of its character list. -/
theorem strLength_data (s : String) : s.length = s.data.length := rfl

/-! ## Claim theorems -/

/-- Claim C1, counterexample: the claim says `toINR(amount, currency)`
is `null` exactly for a missing or non-finite amount and otherwise
equals `round(amount · rate)`. At the present, finite amount `0` the
code's falsy test `!amount` fires, so `toINR(0, 'USD')` is `null` while
the claimed value is `round(0 · rate) = 0`. -/
theorem c1_counterexample :
    toINRval stUSD 0 none (some (some 0)) "USD" = none ∧
    some (jsRound (0 * getINRRateVal stUSD 0 none "USD")) ≠ (none : Option ℤ) := by
  constructor
  · rfl
  · decide

/-- Claim C1, amended: `toINR` returns `null` exactly when the amount
is missing, `NaN`, or `0` (all falsy under `!amount || isNaN(amount)`);
any other finite amount yields exactly `Math.round(amount · rate)` for
the requested currency's rate — in particular always an integer or
`null`. -/
theorem c1_amended (st : RateState) (now : ℤ) (fetched : Option (List (String × ℚ)))
    (amount : Option (Option ℚ)) (currency : String) :
    (toINRval st now fetched amount currency = none ↔
      amount = none ∨ amount = some none ∨ amount = some (some 0)) ∧
    (∀ q : ℚ, amount = some (some q) → q ≠ 0 →
      toINRval st now fetched amount currency =
        some (jsRound (q * getINRRateVal st now fetched currency))) := by
  constructor
  · constructor
    · intro h
      match amount with
      | none => exact Or.inl rfl
      | some none => exact Or.inr (Or.inl rfl)
      | some (some q) =>
        by_cases hq : q = 0
        · exact Or.inr (Or.inr (by rw [hq]))
        · rw [show toINRval st now fetched (some (some q)) currency =
            some (jsRound (q * getINRRateVal st now fetched currency)) from by
              show (if q = 0 then none
                else some (jsRound (q * getINRRateVal st now fetched currency))) = _
              rw [if_neg hq]] at h
          exact absurd h (by simp)
    · intro h
      rcases h with h | h | h <;> rw [h] <;> simp [toINRval]
  · intro q hq hne
    rw [hq]
    show (if q = 0 then none
      else some (jsRound (q * getINRRateVal st now fetched currency))) = _
    rw [if_neg hne]

/-- Claim C1, witness for the amended theorem: at the concrete finite
amount 25.5 and a USD rate of 0.012 the conversion is
`round(25.5 / 0.012) = 2125`. -/
theorem c1_witness :
    toINRval stUSD 0 none (some (some (51 / 2))) "USD" =
      some (jsRound ((51 / 2) * getINRRateVal stUSD 0 none "USD")) ∧
    toINRval stUSD 0 none (some (some (51 / 2))) "USD" = some 2125 :=
  ⟨(c1_amended stUSD 0 none (some (some (51 / 2))) "USD").2 (51 / 2) rfl (by norm_num),
   by with_unfolding_all decide⟩

/-- Claim C3: the spec scenario expects the slug of
`https://example.com/dp/amazing-wireless-headphones-B08XYZ123/` to
become `"Amazing Wireless Headphones"`, but the code's ID-stripping
regexes (`\b[a-f0-9]{8,}\b` and `\b\d{4,}\b`) do not match the ASIN
token `B08XYZ123` (it contains the non-hex letters `X`, `Y`, `Z` and no
four-digit run), so the token survives title-casing — contradicting the
code's own `remove trailing IDs` comment. -/
theorem c3_slug_keeps_asin :
    extractProductNameFromUrl
        "https://example.com/dp/amazing-wireless-headphones-B08XYZ123/" =
      some "Amazing Wireless Headphones B08XYZ123" ∧
    extractProductNameFromUrl
        "https://example.com/dp/amazing-wireless-headphones-B08XYZ123/" ≠
      some "Amazing Wireless Headphones" := by
  constructor
  · decide
  · decide

/-- Claim C4, counterexample: the claim promises no `'<'`/`'>'` in
`cleanHTML`'s output for every well-formed input, but the entity decodes
run *after* tag stripping, so the perfectly well-formed text
`"&lt;x&gt;"` cleans to `"<x>"`; moreover block excision can even
create an entity out of well-formed input containing none, as in
`"&l<script>x</script>t;"`, which cleans to `"<"` — so no bracket-free
guarantee holds while any ampersand is present. -/
theorem c4_counterexample :
    (WellFormedHTML "&lt;x&gt;" ∧ '<' ∈ (cleanHTML "&lt;x&gt;").data) ∧
    (WellFormedHTML "&l<script>x</script>t;" ∧
      containsSub "&lt;".data "&l<script>x</script>t;".data = false ∧
      '<' ∈ (cleanHTML "&l<script>x</script>t;").data) := by
  refine ⟨⟨by decide, by decide⟩, by decide, by decide, by decide⟩

/-- Claim C4, amended: for every well-formed HTML input containing no
ampersand (hence no entity that could decode or re-assemble into a
bracket), the output of `cleanHTML` has length at most 8000 and
contains no `'<'` and no `'>'`; the length bound needs no hypothesis
beyond the 8000-character slice itself. -/
theorem c4_amended (s : String) (hwf : WellFormedHTML s) (hamp : '&' ∉ s.data) :
    (cleanHTML s).length ≤ 8000 ∧
    '<' ∉ (cleanHTML s).data ∧ '>' ∉ (cleanHTML s).data := by
  rw [strLength_data, cleanHTML_data]
  exact cleanHTMLList_bounds s.data hwf hamp

/-- Claim C4, witness: the amended theorem applied to the concrete
well-formed, ampersand-free document `"<b>hi</b>"`. -/
theorem c4_witness :
    (cleanHTML "<b>hi</b>").length ≤ 8000 ∧
    '<' ∉ (cleanHTML "<b>hi</b>").data ∧ '>' ∉ (cleanHTML "<b>hi</b>").data :=
  c4_amended "<b>hi</b>" (by decide) (by decide)

/-- Claim C5, counterexample: cleaning is not idempotent on all
outputs, even far below the length cap. The output of
`cleanHTML "&lt;script&gt;x&lt;/script&gt;"` is the 18-character text
`"<script>x</script>"`, which a second cleaning deletes entirely; and
the output `"&amp;lt;x"` of `cleanHTML "&amp;amp;lt;x"` contains no
`'<'` at all yet still shrinks again, because its `&amp;` decodes
further — so surviving entity sequences must also be excluded. -/
theorem c5_counterexample :
    ((cleanHTML "&lt;script&gt;x&lt;/script&gt;").length < 8000 ∧
      cleanHTML (cleanHTML "&lt;script&gt;x&lt;/script&gt;") ≠
        cleanHTML "&lt;script&gt;x&lt;/script&gt;") ∧
    ((cleanHTML "&amp;amp;lt;x").length < 8000 ∧
      '<' ∉ (cleanHTML "&amp;amp;lt;x").data ∧
      cleanHTML (cleanHTML "&amp;amp;lt;x") ≠ cleanHTML "&amp;amp;lt;x") := by
  refine ⟨⟨by decide, by decide⟩, by decide, by decide, by decide⟩

set_option maxHeartbeats 8000000 in
/-- Claim C5, amended: `cleanHTML` is idempotent on its own output
below the length cap provided the output contains no `'<'` and none of
the four entity sequences the decoder rewrites — the conditions the
counterexamples show are necessary. -/
theorem c5_amended (h : String)
    (hlen : (cleanHTML h).length < 8000)
    (hlt : '<' ∉ (cleanHTML h).data)
    (hn1 : containsSub "&nbsp;".data (cleanHTML h).data = false)
    (hn2 : containsSub "&amp;".data (cleanHTML h).data = false)
    (hn3 : containsSub "&lt;".data (cleanHTML h).data = false)
    (hn4 : containsSub "&gt;".data (cleanHTML h).data = false) :
    cleanHTML (cleanHTML h) = cleanHTML h := by
  have hdata := cleanHTML_data h
  rw [hdata] at hlt hn1 hn2 hn3 hn4
  rw [strLength_data, hdata] at hlen
  obtain ⟨X, hX⟩ : ∃ X, cleanHTMLList h.data =
      List.take 8000 (jsTrimList (collapseWs2 X)) := ⟨_, rfl⟩
  have htake : List.take 8000 (jsTrimList (collapseWs2 X)) =
      jsTrimList (collapseWs2 X) :=
    take_eq_of_length_lt (by rw [← hX]; exact hlen)
  have hs : cleanHTMLList h.data = jsTrimList (collapseWs2 X) := hX.trans htake
  have hchain : List.Chain' WsSep (cleanHTMLList h.data) := by
    rw [hs]
    exact chainWsSep_jsTrimList (collapseWs2_chain X.length X le_rfl)
  have hhead : ∀ c, (cleanHTMLList h.data).head? = some c → isJsWs c = false := by
    rw [hs]
    exact fun c hc => jsTrimList_head hc
  have hlast : ∀ c, (cleanHTMLList h.data).getLast? = some c → isJsWs c = false := by
    rw [hs]
    exact fun c hc => jsTrimList_getLast hc
  apply strEq_of_data
  rw [cleanHTML_data (cleanHTML h), hdata]
  exact cleanHTMLList_fix (cleanHTMLList h.data) hlt hn1 hn2 hn3 hn4 hchain hhead hlast
    (le_of_lt hlen)

/-- Claim C5, witness: the amended theorem applied to the plain text
`"hello world"`, which cleans to itself and stays fixed. -/
theorem c5_witness : cleanHTML (cleanHTML "hello world") = cleanHTML "hello world" :=
  c5_amended "hello world" (by decide) (by decide) (by decide) (by decide)
    (by decide) (by decide)

/-- Claim C6: when a triggered refresh fails, `getINRRate` overwrites
the whole snapshot with the hardcoded fallback table (full replacement,
not a merge), leaves `ratesFetchedAt` untouched, and therefore — when
the refresh was triggered by staleness — every later call still sees a
stale stamp and retries the network refresh. -/
theorem c6_refresh_failure (st : RateState) (now : ℤ) (cur : String)
    (href : needsRefresh st now cur = true) :
    (rateStateAfter st now cur none).rates = fallbackRates ∧
    (rateStateAfter st now cur none).fetchedAt = st.fetchedAt ∧
    (now - st.fetchedAt > 30 * 60 * 1000 →
      ∀ (now2 : ℤ) (cur2 : String), now ≤ now2 →
        needsRefresh (rateStateAfter st now cur none) now2 cur2 = true) := by
  unfold rateStateAfter
  rw [if_pos href]
  refine ⟨rfl, rfl, ?_⟩
  intro hstale now2 cur2 hle
  simp only [needsRefresh, Bool.or_eq_true, decide_eq_true_eq]
  exact Or.inl (by omega)

/-- Claim C6, witness: a snapshot stamped at 0 queried at t = 2 000 000
ms (stale) with a failing fetch: the snapshot becomes exactly the
fallback table, the stamp stays 0, and a later call at t = 2 500 000
still wants a refresh. -/
theorem c6_witness :
    (rateStateAfter ⟨[], 0⟩ 2000000 "USD" none).rates = fallbackRates ∧
    (rateStateAfter ⟨[], 0⟩ 2000000 "USD" none).fetchedAt = 0 ∧
    needsRefresh (rateStateAfter ⟨[], 0⟩ 2000000 "USD" none) 2500000 "EUR" = true := by
  have h := c6_refresh_failure ⟨[], 0⟩ 2000000 "USD" (by decide)
  exact ⟨h.1, h.2.1, h.2.2 (by decide) 2500000 "EUR" (by decide)⟩

/-- Claim C7: whenever the fetch stage ends with `fetchFailed`, a falsy
`html`, or fewer than 500 characters, the `/scrape` pipeline answers
with the blocked payload: `blocked = true` and `price = null`. -/
theorem c7_short_html_blocked (env : ScrapeEnv) (url : String)
    (hurl : env.url = some url) (hne : url ≠ "") (hoops : env.oops = none)
    (hcond : fetchBlockedCond env = true) :
    ∃ r, scrape env = ScrapeResult.product r ∧ r.blocked = true ∧ r.price = none := by
  have hmain : scrape env = blockedResponse url (getWebsiteName url) := by
    simp only [scrape, hurl, hoops, if_neg hne]
    simp only [scrapeMain, if_pos hcond]
  rw [hmain]
  unfold blockedResponse
  exact ⟨_, rfl, rfl, rfl⟩

/-- Claim C7, witness: a cloud request whose only fetch (Axios) throws,
so both strategies fail and the response is blocked with a null
price. -/
theorem c7_witness :
    ∃ r, scrape envFetchFail = ScrapeResult.product r ∧
      r.blocked = true ∧ r.price = none :=
  c7_short_html_blocked envFetchFail "https://example.com/p/some-product-name/"
    rfl (by decide) rfl (by decide)

/-- Claim C8: with no configured search-service key, `/search` answers
the static fallback: `fallback = true` and exactly one entry per
configured retailer — Amazon India, Flipkart, Myntra — each with a null
price and the text `Check website`. -/
theorem c8_search_fallback (env : SearchEnv) (pn : String)
    (hpn : env.productName = some pn) (hne : pn ≠ "") (hkey : env.serpKey = none) :
    searchEndpoint env = SearchResult.ok (searchFallbackProducts pn) true ∧
    (searchFallbackProducts pn).length = 3 ∧
    (searchFallbackProducts pn).map (fun p => p.websiteName) =
      ["Amazon India", "Flipkart", "Myntra"] ∧
    ∀ p ∈ searchFallbackProducts pn, p.price = none ∧ p.priceText = "Check website" := by
  refine ⟨?_, rfl, rfl, ?_⟩
  · simp only [searchEndpoint, hpn, hkey, if_neg hne]
    rfl
  · intro p hp
    simp [searchFallbackProducts, retailers] at hp
    rcases hp with h | h | h <;> rw [h] <;> exact ⟨rfl, rfl⟩

/-- Claim C8, witness: the fallback response for the query `"phone"`
with no key configured. -/
theorem c8_witness :
    searchEndpoint envSearchNoKey = SearchResult.ok (searchFallbackProducts "phone") true ∧
    ∀ p ∈ searchFallbackProducts "phone", p.price = none :=
  ⟨(c8_search_fallback envSearchNoKey "phone" rfl (by decide) rfl).1,
   fun p hp => ((c8_search_fallback envSearchNoKey "phone" rfl (by decide) rfl).2.2.2 p hp).1⟩

/-- Claim C9: `detectCurrency` answers the default `'USD'` — never the
reference currency `'INR'` — for a missing or empty price string and
for every price string carrying none of the markers `₹`, `inr`
(case-insensitive), `€`, `£`, `¥`; consequently the scrape pipeline's
currency choice for an extraction without a currency field is `'USD'`,
so such prices are converted at the USD rate. -/
theorem c9_detect_default (s : Option String) (h : noCurrencyMarker s = true) :
    detectCurrency s = "USD" ∧ detectCurrency s ≠ "INR" ∧
    ∀ (n : Option String) (d : Option (List String)) (i : Option String),
      currencyChoice ⟨n, s, none, d, i⟩ = "USD" := by
  have hd : detectCurrency s = "USD" := by
    match s with
    | none => rfl
    | some str =>
      simp only [noCurrencyMarker, Bool.and_eq_true, Bool.not_eq_true'] at h
      obtain ⟨⟨⟨⟨h1, h2⟩, h3⟩, h4⟩, h5⟩ := h
      have m1 : '₹' ∉ str.data := by simpa using h1
      have m3 : '€' ∉ str.data := by simpa using h3
      have m4 : '£' ∉ str.data := by simpa using h4
      have m5 : '¥' ∉ str.data := by simpa using h5
      simp only [detectCurrency]
      by_cases he : str = ""
      · rw [if_pos he]
      · rw [if_neg he]
        rw [if_neg (by simp [m1, h2])]
        rw [if_neg (by simp [m3])]
        rw [if_neg (by simp [m4])]
        rw [if_neg (by simp [m5])]
  refine ⟨hd, by rw [hd]; decide, ?_⟩
  intro n d i
  show detectCurrency s = "USD"
  exact hd

/-- Claim C9, witness: the plain dollar amount `"25.99"` carries no
marker, so it is detected as USD, and the pipeline's currency choice
for an extraction without a currency field agrees. -/
theorem c9_witness :
    detectCurrency (some "25.99") = "USD" ∧
    currencyChoice ⟨some "Widget", some "25.99", none, none, none⟩ = "USD" :=
  ⟨(c9_detect_default (some "25.99") (by decide)).1,
   (c9_detect_default (some "25.99") (by decide)).2.2 (some "Widget") none none⟩

/-- Shape of every blocked payload. -/
theorem blockedResponse_inv {url wn : String} {r : NormalizedProduct}
    (h : blockedResponse url wn = ScrapeResult.product r) :
    r.blocked = true ∧ r.price = none ∧ r.description = [] := by
  simp only [blockedResponse] at h
  injection h with h
  subst h
  exact ⟨rfl, rfl, rfl⟩

/-- Shape of every payload of the outer catch. -/
theorem scrapeCatch_inv {url wn msg : String} {r : NormalizedProduct}
    (h : scrapeCatch url wn msg = ScrapeResult.product r) :
    r.blocked = true ∧ r.price = none ∧ r.description = [] := by
  simp only [scrapeCatch] at h
  split at h
  · split at h
    · exact absurd h (by simp)
    · injection h with h
      subst h
      exact ⟨rfl, rfl, rfl⟩
  · exact absurd h (by simp)

/-- Claim C2: every `/scrape` response with `blocked = true` — on
every path that can produce one: fetch failure, short HTML, short
reduced text, failed AI extraction, invalid name, and the outer catch —
carries `price = null` and `description = []`. -/
theorem c2_blocked_invariant (env : ScrapeEnv) (r : NormalizedProduct)
    (h : scrape env = ScrapeResult.product r) (hb : r.blocked = true) :
    r.price = none ∧ r.description = [] := by
  simp only [scrape] at h
  split at h
  · exact absurd h (by simp)
  · split at h
    · exact absurd h (by simp)
    · split at h
      · exact ⟨(scrapeCatch_inv h).2.1, (scrapeCatch_inv h).2.2⟩
      · simp only [scrapeMain] at h
        split at h
        · exact ⟨(blockedResponse_inv h).2.1, (blockedResponse_inv h).2.2⟩
        · split at h
          · exact ⟨(blockedResponse_inv h).2.1, (blockedResponse_inv h).2.2⟩
          · split at h
            · exact ⟨(blockedResponse_inv h).2.1, (blockedResponse_inv h).2.2⟩
            · split at h
              · exact ⟨(blockedResponse_inv h).2.1, (blockedResponse_inv h).2.2⟩
              · split at h
                · exact ⟨(blockedResponse_inv h).2.1, (blockedResponse_inv h).2.2⟩
                · injection h with h
                  subst h
                  exact absurd hb (by simp)

/-- Claim C2, witness: the blocked response of a request whose fetch
fails, checked to carry a null price and empty description. -/
theorem c2_witness :
    ∃ r, scrape envBlockedC2 = ScrapeResult.product r ∧
      r.price = none ∧ r.description = [] := by
  have hex : ∃ r, scrape envBlockedC2 = ScrapeResult.product r ∧ r.blocked = true :=
    ⟨_, rfl, rfl⟩
  obtain ⟨r, hr, hb⟩ := hex
  obtain ⟨hp, hd⟩ := c2_blocked_invariant envBlockedC2 r hr hb
  exact ⟨r, hr, hp, hd⟩

/-- Claim C10: in a successful (`blocked = false`) `/scrape` response
the `priceText` field is the INR-formatted string for the converted
price exactly when that price is truthy (nonzero), and otherwise falls
back to the extractor original price text; and on the concrete
environment `envZeroPrice`, where a small foreign amount rounds to the
integer 0, the response carries `price = 0` together with the original
foreign-currency `priceText` rather than an INR-formatted one. -/
theorem c10_priceText :
    (∀ (env : ScrapeEnv) (url : String) (ext : GeminiExtraction)
        (r : NormalizedProduct),
      env.url = some url → url ≠ "" → env.oops = none →
      env.gemini = some ext →
      scrape env = ScrapeResult.product r → r.blocked = false →
      r.priceText =
        match r.price with
        | some p => if p ≠ 0 then some ("₹" ++ toLocaleEnIN p) else ext.priceText
        | none => ext.priceText) ∧
    (∃ r, scrape envZeroPrice = ScrapeResult.product r ∧
      r.blocked = false ∧ r.price = some 0 ∧
      r.priceText = some "$0.004" ∧
      r.priceText ≠ some ("₹" ++ toLocaleEnIN 0)) := by
  constructor
  · intro env url ext r hurl hne hoops hg h hb
    simp only [scrape, hurl, hoops, if_neg hne] at h
    simp only [scrapeMain, hg] at h
    split at h
    · exact absurd (((blockedResponse_inv h).1).symm.trans hb) (by decide)
    · split at h
      · exact absurd (((blockedResponse_inv h).1).symm.trans hb) (by decide)
      · split at h
        · exact absurd (((blockedResponse_inv h).1).symm.trans hb) (by decide)
        · split at h
          · exact absurd (((blockedResponse_inv h).1).symm.trans hb) (by decide)
          · injection h with h
            subst h
            rfl
  · with_unfolding_all exact ⟨_, rfl, rfl, rfl, rfl, by decide⟩

/-- Claim C10, witness: the `priceText` law instantiated on the
concrete environment `envZeroPrice`. -/
theorem c10_witness :
    ∃ r, scrape envZeroPrice = ScrapeResult.product r ∧
      r.priceText =
        (match r.price with
         | some p =>
           if p ≠ 0 then some ("₹" ++ toLocaleEnIN p) else extTiny.priceText
         | none => extTiny.priceText) := by
  obtain ⟨r, hr, hb, -, -, -⟩ := c10_priceText.2
  exact ⟨r, hr,
    c10_priceText.1 envZeroPrice "https://shop.example.com/items/tiny-widget-pro/"
      extTiny r rfl (by decide) rfl rfl hr hb⟩
